import Mathlib

/-!
Shallow embedding of the ndr hierarchical node-tree engine
(`src/app/app/services/node_service.py`, `relationship_service.py`,
`src/app/domain/repositories/node_repository.py`,
`relationship_repository.py`, models in `src/app/infra/db/models.py`).

Materialized ltree paths are modelled as lists of labels (`Path`):
every slug is validated against `[a-z0-9_-]{1,255}` before it enters a
path, so labels never contain the dot separator and the string
operations of the source (`f"{parent}.{slug}"`, `startswith(path + ".")`,
`rsplit(".", 1)[0]`, slicing off the prefix) correspond exactly to list
append, strict list-prefix test, `dropLast` and `drop` on labels.

Database rows are lists of records; SQL `UPDATE`/`DELETE ... WHERE`
statements become `List.map` / `List.filter`, primary-key `session.get`
becomes `List.find?`, and the whole service call either returns the
committed state (`Except.ok`) or rolls back (`Except.error` carries no
state, mirroring the transaction-per-operation design of the service
layer where any raised error aborts with zero partial writes).
-/

namespace NDR

/-- Materialized path: the list of ltree labels (slugs) from the root. -/
abbrev Path := List String

/-- Strict descendant test, `path.startswith(root + ".")` of the source:
the root labels are a proper prefix of the path labels. -/
def strictUnder (p root : Path) : Prop := root <+: p ∧ root.length < p.length

instance (p root : Path) : Decidable (strictUnder p root) := by
  unfold strictUnder; infer_instance

/-- Membership of a path in the subtree rooted at `root` (the
`or_` of an exact path match and the descendant lquery pattern in
`fetch_subtree`): the root itself or any strict descendant. -/
def inSubtree (p root : Path) : Prop := p = root ∨ strictUnder p root

instance (p root : Path) : Decidable (inSubtree p root) := by
  unfold inSubtree; infer_instance

/-- Row of the `nodes` table (`Node` model). Timestamps are abstract
ticks; `deleted_at = none` means the node is active. -/
structure Node where
  id : Nat
  name : String
  slug : String
  type : Option String
  parent_id : Option Nat
  parent_path : Option Path
  path : Path
  position : Int
  subtree_doc_count : Int
  deleted_at : Option Nat
  created_by : String
  updated_by : String
deriving Repr, DecidableEq

/-- Row of the `node_documents` association table (`NodeDocument`
model); `relation_type` defaults to `"output"` on creation. -/
structure NodeDocument where
  node_id : Nat
  document_id : Nat
  relation_type : String
  deleted_at : Option Nat
  created_by : String
  updated_by : String
deriving Repr, DecidableEq

/-- Row of the `documents` table, restricted to the fields the node
tree consumes: identity and soft-delete state. -/
structure Document where
  id : Nat
  deleted_at : Option Nat
deriving Repr, DecidableEq

/-- Persistent state: the three tables, the autoincrement counter for
node ids and a logical clock supplying soft-delete timestamps. -/
structure DB where
  nodes : List Node
  bindings : List NodeDocument
  documents : List Document
  nextNodeId : Nat
  now : Nat
deriving Repr, DecidableEq

/-- Only `output` bindings count toward `subtree_doc_count`
(`COUNTED_RELATION_TYPE` in `app/domain/__init__.py`). -/
def COUNTED_RELATION_TYPE : String := "output"

/-- Errors raised by the services; the Python exception classes with
their distinguishing message, so different `InvalidNodeOperationError`
sites stay distinguishable. -/
inductive SvcError where
  | nodeNotFound
  | parentNotFound
  | conflict (field : String)
  | invalidOperation (msg : String)
  | missingUser
  | relationNotFound
  | documentNotFound
deriving Repr, DecidableEq

def msgBadSlug : String := "slug must match [a-z0-9_-]{1,255}"

def msgSelfParent : String := "Cannot set a node as its own parent"

def msgOwnSubtree : String := "Cannot move a node under its own subtree"

def msgDuplicateReorderIds : String := "Duplicate node ids in reorder payload"

def msgPurgeNeedsSoftDelete : String :=
  "Node must be soft-deleted before permanent removal"

/-- Slug validation `re.fullmatch(r"[a-z0-9_-]{1,255}", slug)`. -/
def validSlug (s : String) : Bool :=
  1 ≤ s.length && s.length ≤ 255 &&
    s.toList.all fun c =>
      (('a' ≤ c && c ≤ 'z') || ('0' ≤ c && c ≤ '9') || c == '-' || c == '_')

/-- Node activity: `deleted_at IS NULL`. -/
def Node.isActive (n : Node) : Bool := n.deleted_at.isNone

/-- Primary-key lookup `session.get(Node, node_id)` / `NodeRepository.get`. -/
def nodeById (db : DB) (id : Nat) : Option Node :=
  db.nodes.find? fun n => n.id == id

/-- Repository `get_active_by_path`. -/
def get_active_by_path (db : DB) (p : Path) : Option Node :=
  db.nodes.find? fun n => n.isActive && n.path == p

/-- Repository `has_active_path` with optional `exclude_id`. -/
def has_active_path (db : DB) (p : Path) (excludeId : Option Nat) : Bool :=
  db.nodes.any fun n =>
    n.isActive && n.path == p &&
      (match excludeId with
       | some e => n.id != e
       | none => true)

/-- Repository `has_active_name` (same `parent_path`, same `name`,
optional `exclude_id`). -/
def has_active_name (db : DB) (parentPath : Option Path) (name : String)
    (excludeId : Option Nat) : Bool :=
  db.nodes.any fun n =>
    n.isActive && n.name == name && n.parent_path == parentPath &&
      (match excludeId with
       | some e => n.id != e
       | none => true)

/-- Parent filter of the sibling queries: `parent_id IS NULL` versus
`parent_id == value`. -/
def parentMatches (n : Node) (parentId : Option Nat) : Bool :=
  n.parent_id == parentId

/-- Repository `next_position`: `coalesce(max(position), -1) + 1` over
active nodes with the given parent. -/
def next_position (db : DB) (parentId : Option Nat) : Int :=
  (db.nodes.foldl
    (fun acc n =>
      if parentMatches n parentId && n.isActive then max acc n.position else acc)
    (-1)) + 1

/-- Sibling comparison `(position, id)` used by ordered sibling queries. -/
def posIdLe (a b : Node) : Bool :=
  a.position < b.position || (a.position == b.position && a.id ≤ b.id)

/-- Stable insertion of one element into a sorted list: the element goes
in front of the first entry it compares `le` to. -/
def insertSorted {α : Type} (le : α → α → Bool) (a : α) : List α → List α
  | [] => [a]
  | b :: t => if le a b then a :: b :: t else b :: insertSorted le a t

/-- Stable sort implementing the deterministic `ORDER BY` of the
repository queries. -/
def sortByKey {α : Type} (le : α → α → Bool) (l : List α) : List α :=
  l.foldr (insertSorted le) []

/-- Repository `fetch_siblings` with `order_by_position=True`: nodes of
one parent, optionally only active ones, ordered by `(position, id)`. -/
def fetch_siblings (db : DB) (parentId : Option Nat) (includeDeleted : Bool) :
    List Node :=
  sortByKey posIdLe (db.nodes.filter fun n =>
    parentMatches n parentId && (includeDeleted || n.isActive))

/-- Index of an id in a list of ids (the `enumerate` counter a node
receives in `normalize_positions`). -/
def idIndex (ids : List Nat) (x : Nat) : Option Nat :=
  match ids with
  | [] => none
  | y :: ys => if y = x then some 0 else (idIndex ys x).map (· + 1)

/-- Position rewrite a single row receives from `normalize_positions`:
its index in the ordered sibling list when it is one of the listed
siblings (`if node.position != index: node.position = index`), else
untouched. -/
def posAssign (sibs : List Node) (n : Node) : Node :=
  match idIndex (sibs.map (·.id)) n.id with
  | some i => if n.position ≠ (i : Int) then { n with position := (i : Int) } else n
  | none => n

/-- Repository `normalize_positions` (with the default
`include_deleted=False`): re-list active siblings ordered by
`(position, id)` and rewrite each position to its index. -/
def normalize_positions (db : DB) (parentId : Option Nat) : DB :=
  let sibs := fetch_siblings db parentId false
  { db with nodes := db.nodes.map (posAssign sibs) }

/-- Repository `fetch_descendants`: every row (soft-deleted included)
whose path strictly descends from `rootPath`, except `excludeId`. -/
def fetch_descendants (db : DB) (rootPath : Path) (excludeId : Nat) : List Node :=
  db.nodes.filter fun n => n.id != excludeId && strictUnder n.path rootPath

/-- Repository `fetch_subtree`: the root path itself plus all strict
descendants, optionally restricted to active rows. The source orders by
path; callers only use the result as an id set, so the stored row order
is kept. -/
def fetch_subtree (db : DB) (rootPath : Path) (includeDeleted : Bool) : List Node :=
  db.nodes.filter fun n =>
    inSubtree n.path rootPath && (includeDeleted || n.isActive)

/-- Modelled from the spec: `getAncestorIds(path)` of the PathIndex is
declared in §4.1 but its body is not under `src/` (only call sites in the
services are). §4.3 Move requires the node at the passed path (the old
parent) to be decremented and §8 has the scenario "move intro from docs
to guides: subtree_doc_count(docs) drops to 0", soft-delete/restore pass
`node.parent_path` expecting the whole ancestor chain of the node to be
hit, and §8 requires the incremental counters to match a full recompute
whose restore-side recomputation (in `src/`) counts the subtree root
itself. All of this forces the ancestor-or-self reading: the ids of every
node whose path is a prefix (the node at the path included) of the given
path. -/
def get_ancestor_ids (db : DB) (p : Path) : List Nat :=
  (db.nodes.filter fun n => decide (n.path <+: p)).map (·.id)

/-- Modelled from the spec: `update_subtree_counts(ids, delta)` of the
SubtreeCounter is not under `src/` (only call sites are). Per §4.3 it
adds the signed delta to the cached `subtree_doc_count` of every node
whose id is in the given set (an `UPDATE ... WHERE id IN (...)`, hence
set semantics). -/
def update_subtree_counts (db : DB) (ids : List Nat) (delta : Int) : DB :=
  { db with
    nodes := db.nodes.map fun n =>
      if n.id ∈ ids then
        { n with subtree_doc_count := n.subtree_doc_count + delta }
      else n }

/-- Join used by every counter query: the binding is live, its relation
type is counted, and the bound document exists and is live. -/
def countedBinding (db : DB) (b : NodeDocument) : Bool :=
  b.deleted_at.isNone && b.relation_type == COUNTED_RELATION_TYPE &&
    db.documents.any fun d => d.id == b.document_id && d.deleted_at.isNone

/-- Count of live counted bindings attached to any node id of `ids`
(the `select count(*) ... where node_id.in_(ids)` statement). -/
def countBindingsFor (db : DB) (ids : List Nat) : Int :=
  ((db.bindings.filter fun b => countedBinding db b && ids.contains b.node_id).length : Int)

/-- Replace the row of one node id (an ORM attribute write flushed to
the unique primary-key row). -/
def setNode (db : DB) (id : Nat) (n : Node) : DB :=
  { db with nodes := db.nodes.map fun m => if m.id = id then n else m }

/-- Relationship repository `get`: primary-key lookup on
`(node_id, document_id)`. -/
def relGet (db : DB) (nodeId docId : Nat) : Option NodeDocument :=
  db.bindings.find? fun b => b.node_id == nodeId && b.document_id == docId

/-- Replace the row of one binding primary key. -/
def setRel (db : DB) (nodeId docId : Nat) (b : NodeDocument) : DB :=
  { db with
    bindings := db.bindings.map fun c =>
      if c.node_id = nodeId ∧ c.document_id = docId then b else c }

/-- Document lookup `session.get(Document, document_id)`. -/
def docById (db : DB) (id : Nat) : Option Document :=
  db.documents.find? fun d => d.id == id

/-- Payload of `create_node` (`NodeCreateData`). `parent_path` is the
optional raw input; the service applies `data.parent_path or None`, so
an empty path behaves like `none`. -/
structure NodeCreateData where
  name : String
  slug : String
  parent_path : Option Path
  type : Option String := none
deriving Repr, DecidableEq

/-- Payload of `update_node` (`NodeUpdateData`): each field is optional
and `parent_path_set` distinguishes "move to root" (`parent_path = none`
with the flag set) from "leave the parent alone". -/
structure NodeUpdateData where
  name : Option String := none
  slug : Option String := none
  parent_path : Option Path := none
  parent_path_set : Bool := false
  type : Option String := none
deriving Repr, DecidableEq

/-- Payload of `reorder_children` (`NodeReorderData`). -/
structure NodeReorderData where
  parent_id : Option Nat
  ordered_ids : List Nat
deriving Repr, DecidableEq

/-- Truthiness of an optional path value (`if parent_path:`): only a
nonempty path counts. -/
def truthyPath : Option Path → Option Path
  | some (l :: ls) => some (l :: ls)
  | _ => none

/-- Service `create_node`. -/
def create_node (db : DB) (data : NodeCreateData) (user : String) :
    Except SvcError (DB × Node) := do
  if user = "" then throw .missingUser
  if ¬ validSlug data.slug then throw (.invalidOperation msgBadSlug)
  let (parentNode, parentPath) ←
    match truthyPath data.parent_path with
    | some pp =>
        match get_active_by_path db pp with
        | none => throw SvcError.parentNotFound
        | some p => pure (some p, some p.path)
    | none => pure ((none : Option Node), (none : Option Path))
  let path : Path :=
    match parentPath with
    | none => [data.slug]
    | some pp => pp ++ [data.slug]
  let parentId := parentNode.map (·.id)
  let position := next_position db parentId
  if has_active_path db path none then throw (.conflict "path")
  if has_active_name db parentPath data.name none then throw (.conflict "name")
  let node : Node :=
    { id := db.nextNodeId
      name := data.name
      slug := data.slug
      type := data.type
      parent_id := parentId
      parent_path := parentPath
      path := path
      position := position
      subtree_doc_count := 0
      deleted_at := none
      created_by := user
      updated_by := user }
  pure ({ db with nodes := db.nodes ++ [node], nextNodeId := db.nextNodeId + 1 }, node)

/-- Service helper `_migrate_subtree_counts_on_move`: count the live
counted bindings of the moved live subtree once, then subtract the total
from the old external ancestor chain and add it to the new one. -/
def migrate_subtree_counts_on_move (db : DB) (subtreeRootPath : Path)
    (oldParentPath newParentPath : Option Path) : DB :=
  let subtreeIds := (fetch_subtree db subtreeRootPath false).map (·.id)
  if subtreeIds = [] then db
  else
    let c := countBindingsFor db subtreeIds
    if c = 0 then db
    else
      let oldIds :=
        match truthyPath oldParentPath with
        | some pp => get_ancestor_ids db pp
        | none => []
      let newIds :=
        match truthyPath newParentPath with
        | some pp => get_ancestor_ids db pp
        | none => []
      let db1 := if oldIds ≠ [] then update_subtree_counts db oldIds (-c) else db
      if newIds ≠ [] then update_subtree_counts db1 newIds c else db1

/-- Path rewrite one descendant row receives when the subtree root moved
from `oldPath` to `node1.path`: the new prefix plus the old suffix, with
`parent_path` recomputed as the path minus the last label (none when a
single label remains). -/
def rewriteRow (node1 : Node) (oldPath : Path) (user : String) (d : Node) :
    Node :=
  if strictUnder d.path oldPath then
    let newDPath := node1.path ++ d.path.drop oldPath.length
    { d with
      path := newDPath
      parent_path := if 2 ≤ newDPath.length then some newDPath.dropLast else none
      updated_by := user }
  else d

/-- The descendant rows with the old prefix of their path replaced. -/
def rewrittenDescs (db : DB) (node1 : Node) (oldPath : Path) (user : String) :
    List Node :=
  (fetch_descendants db oldPath node1.id).map (rewriteRow node1 oldPath user)

/-- Resolution of a path through the dict of updated rows keyed by path
(a Python dict comprehension: the last write wins, hence the reversed
scan). -/
def pathToId (updated : List Node) (p : Path) : Option Nat :=
  (updated.reverse.find? fun u => u.path == p).map (·.id)

/-- The `parent_id` re-link a rewritten descendant row receives from the
dict of updated rows. -/
def relinkRow (updated : List Node) (d : Node) : Node :=
  { d with
    parent_id :=
      match truthyPath d.parent_path with
      | some pp => pathToId updated pp
      | none => none }

/-- Descendant rewrite of `update_node` when the path changed: fetch the
descendants of the old path, rewrite each one's path and `parent_path`,
then resolve every `parent_id` through the dict of updated rows keyed by
path. `node1` is the updated root row, already carrying the new path. -/
def rewrite_descendants (db : DB) (node1 : Node) (oldPath : Path)
    (user : String) : DB :=
  let descs1 := rewrittenDescs db node1 oldPath user
  let descs2 := descs1.map (relinkRow (node1 :: descs1))
  { db with
    nodes := db.nodes.map fun m =>
      if m.id = node1.id then { m with path := node1.path }
      else
        match descs2.find? fun d => d.id == m.id with
        | some d => d
        | none => m }

/-- New name/slug/type field writes of `update_node` on the target row. -/
def upd_n1 (node : Node) (data : NodeUpdateData) : Node :=
  { node with
    name := data.name.getD node.name
    slug := data.slug.getD node.slug
    type := if data.type.isSome then data.type else node.type }

/-- New materialized path of the updated node: the resolved new parent
path plus the (possibly new) slug. -/
def updNewPath (node : Node) (data : NodeUpdateData) (tgtParentPath : Option Path) :
    Path :=
  match tgtParentPath with
  | none => [data.slug.getD node.slug]
  | some pp => pp ++ [data.slug.getD node.slug]

/-- Stages 1-4 of the `update_node` mutation: the field writes, the
parent re-link, the fresh position and the counter migration of a
cross-parent move. Returns the state plus the in-session node value. -/
def upd_stage4 (db : DB) (node : Node) (data : NodeUpdateData)
    (tgtParentPath : Option Path) (tgtParentId : Option Nat) : DB × Node :=
  let n1 := upd_n1 node data
  let db1 := setNode db node.id n1
  if data.parent_path_set then
    let n2 := { n1 with parent_id := tgtParentId, parent_path := tgtParentPath }
    let db2 := setNode db1 node.id n2
    if tgtParentId ≠ node.parent_id then
      let n3 := { n2 with position := next_position db2 tgtParentId }
      let db3 := setNode db2 node.id n3
      (migrate_subtree_counts_on_move db3 n3.path node.parent_path tgtParentPath,
        n3)
    else (db2, n2)
  else (db1, n1)

/-- Mutation phase of `update_node` after all validations passed,
mirroring the statement order of the source: the field writes, the
parent re-link with its position assignment and counter migration, the
descendant path rewrite, and finally the position renormalization of
both parents on a cross-parent move. Writes are per assigned attribute
(a flush never reverts the SQL counter migration), and the returned node
is the session-refreshed final row. -/
def update_apply (db : DB) (node : Node) (data : NodeUpdateData) (user : String)
    (tgtParentPath : Option Path) (tgtParentId : Option Nat) : DB × Node :=
  let newPath := updNewPath node data tgtParentPath
  let (db4, n4) := upd_stage4 db node data tgtParentPath tgtParentId
  let (db5, n5) :=
    if newPath ≠ node.path then
      let n5 := { n4 with path := newPath }
      (rewrite_descendants db4 n5 node.path user, n5)
    else (db4, n4)
  let db6 :=
    { db5 with
      nodes := db5.nodes.map fun m =>
        if m.id = node.id then { m with updated_by := user } else m }
  let db7 :=
    if data.parent_path_set ∧ tgtParentId ≠ node.parent_id then
      normalize_positions (normalize_positions db6 node.parent_id) tgtParentId
    else db6
  (db7, (nodeById db7 node.id).getD { n5 with updated_by := user })

/-- Service `update_node`: rename and/or move in one call; validations
and reads first, then the mutation phase `update_apply`. -/
def update_node (db : DB) (nodeId : Nat) (data : NodeUpdateData)
    (user : String) : Except SvcError (DB × Node) := do
  if user = "" then throw .missingUser
  let some node := nodeById db nodeId | throw SvcError.nodeNotFound
  if node.deleted_at.isSome then throw SvcError.nodeNotFound
  match data.slug with
  | some s => if ¬ validSlug s then throw (.invalidOperation msgBadSlug)
  | none => pure ()
  let (tgtParentPath, tgtParentId) ←
    if data.parent_path_set then
      match truthyPath data.parent_path with
      | some pp =>
          match get_active_by_path db pp with
          | none => throw SvcError.parentNotFound
          | some p =>
              if p.id = node.id then throw (.invalidOperation msgSelfParent)
              else if strictUnder p.path node.path then
                throw (.invalidOperation msgOwnSubtree)
              else pure (some p.path, some p.id)
      | none => pure ((none : Option Path), (none : Option Nat))
    else pure (node.parent_path, node.parent_id)
  let newName := data.name.getD node.name
  let newSlug := data.slug.getD node.slug
  let newParentPath := tgtParentPath
  if has_active_name db newParentPath newName (some node.id) then
    throw (.conflict "name")
  let newPath : Path :=
    match newParentPath with
    | none => [newSlug]
    | some pp => pp ++ [newSlug]
  if has_active_path db newPath (some node.id) then throw (.conflict "path")
  pure (update_apply db node data user tgtParentPath tgtParentId)

/-- Count of the live counted bindings attached directly to one node
(the `_decrement_/_increment_ancestor_counts_for_node` query). -/
def directOutputCount (db : DB) (nodeId : Nat) : Int :=
  countBindingsFor db [nodeId]

/-- Service `soft_delete_node`: subtract the direct output-binding count
of the node from its ancestor chain, stamp `deleted_at`, renormalize the
former siblings. -/
def soft_delete_apply (db : DB) (node : Node) (user : String) : DB :=
  let direct := directOutputCount db node.id
  let dbA :=
    match truthyPath node.parent_path with
    | some pp =>
        if direct ≠ 0 then update_subtree_counts db (get_ancestor_ids db pp) (-direct)
        else db
    | none => db
  let parentId := node.parent_id
  let dbB := setNode dbA node.id
    { node with deleted_at := some db.now, updated_by := user }
  normalize_positions dbB parentId

/-- Guard phase of `soft_delete_node`. -/
def soft_delete_node (db : DB) (nodeId : Nat) (user : String) :
    Except SvcError DB := do
  if user = "" then throw .missingUser
  let some node := nodeById db nodeId | throw SvcError.nodeNotFound
  if node.deleted_at.isSome then throw SvcError.nodeNotFound
  pure (soft_delete_apply db node user)

/-- State transformation of a successful `purge_node`: physically delete
the whole path subtree of the target (soft-deleted rows included) and
every binding row referencing a collected node, then renormalize the
original parent. -/
def purge_apply (db : DB) (node : Node) : DB :=
  let removedIds :=
    node.id :: (fetch_subtree db node.path true).map (·.id)
  let dbA :=
    { db with
      bindings := db.bindings.filter fun b => ¬ b.node_id ∈ removedIds
      nodes := db.nodes.filter fun n => ¬ n.id ∈ removedIds }
  normalize_positions dbA node.parent_id

/-- Service `purge_node`: only legal on a soft-deleted node, then apply
`purge_apply`. -/
def purge_node (db : DB) (nodeId : Nat) (user : String) :
    Except SvcError DB := do
  if user = "" then throw .missingUser
  let some node := nodeById db nodeId | throw SvcError.nodeNotFound
  if node.deleted_at.isNone then
    throw (.invalidOperation msgPurgeNeedsSoftDelete)
  pure (purge_apply db node)

/-- Service `restore_node`: a no-op on an active node; otherwise
re-validate path/name uniqueness at the original location, clear the
soft-delete marker, add the direct output-binding count back onto the
ancestor chain, recompute the node-local cached counter over the live
subtree, and renormalize the siblings. -/
def restore_apply (db : DB) (node : Node) (user : String) : DB × Node :=
  let n1 := { node with deleted_at := none, updated_by := user }
  let db1 := setNode db node.id n1
  let direct := directOutputCount db1 n1.id
  let db2 :=
    match truthyPath n1.parent_path with
    | some pp =>
        if direct ≠ 0 then
          update_subtree_counts db1 (get_ancestor_ids db1 pp) direct
        else db1
    | none => db1
  let subtreeIds := (fetch_subtree db2 n1.path false).map (·.id)
  let n2 :=
    { n1 with
      subtree_doc_count :=
        if subtreeIds ≠ [] then countBindingsFor db2 subtreeIds else 0 }
  let db3 := setNode db2 n1.id n2
  let db4 := normalize_positions db3 n2.parent_id
  (db4, (nodeById db4 n1.id).getD n2)

/-- Guard phase of `restore_node`. -/
def restore_node (db : DB) (nodeId : Nat) (user : String) :
    Except SvcError (DB × Node) := do
  if user = "" then throw .missingUser
  let some node := nodeById db nodeId | throw SvcError.nodeNotFound
  if node.deleted_at.isNone then return (db, node)
  if has_active_path db node.path (some node.id) then throw (.conflict "path")
  if has_active_name db node.parent_path node.name (some node.id) then
    throw (.conflict "name")
  pure (restore_apply db node user)

/-- Mutation phase of `reorder_children`: the provided ids come first in
the given order, the remaining active siblings follow in their prior
relative order, and `position := index` is written for every node of the
sequence whose position actually changes. -/
def reorder_apply (db : DB) (data : NodeReorderData) (user : String) :
    DB × List Node :=
  let siblings := fetch_siblings db data.parent_id false
  let orderedNodes := data.ordered_ids.filterMap fun i =>
    siblings.find? fun n => n.id == i
  let remaining := siblings.filter fun n => ¬ n.id ∈ data.ordered_ids
  let sequence := orderedNodes ++ remaining
  let sequence2 := sequence.enum.map fun (i, n) =>
    if n.position ≠ (i : Int) then
      { n with position := (i : Int), updated_by := user }
    else n
  let db1 :=
    { db with
      nodes := db.nodes.map fun m =>
        match sequence2.find? fun s => s.id == m.id with
        | some s => s
        | none => m }
  (db1, sequence2)

/-- Guard phase of `reorder_children` (validating the parent, the empty
sibling set, duplicate ids and foreign ids). -/
def reorder_children (db : DB) (data : NodeReorderData) (user : String) :
    Except SvcError (DB × List Node) := do
  if user = "" then throw .missingUser
  match data.parent_id with
  | some pid =>
      match nodeById db pid with
      | none => throw SvcError.parentNotFound
      | some p => if p.deleted_at.isSome then throw SvcError.parentNotFound
  | none => pure ()
  let siblings := fetch_siblings db data.parent_id false
  if siblings = [] then
    if data.ordered_ids ≠ [] then throw SvcError.nodeNotFound
    else return (db, [])
  if ¬ data.ordered_ids.Nodup then
    throw (.invalidOperation msgDuplicateReorderIds)
  if ¬ (data.ordered_ids.all fun i => siblings.any fun n => n.id == i) then
    throw SvcError.nodeNotFound
  pure (reorder_apply db data user)

/-- Revival branch of `bind`: clear the soft-delete marker of the
existing relation, add 1 along the ancestor chain of the bound node. -/
def bind_revive_apply (db : DB) (node : Node) (relation : NodeDocument)
    (user : String) : DB × NodeDocument :=
  let rel1 := { relation with deleted_at := none, updated_by := user }
  let db1 := setRel db relation.node_id relation.document_id rel1
  let db2 := update_subtree_counts db1 (get_ancestor_ids db1 node.path) 1
  (db2, rel1)

/-- Creation branch of `bind`: insert a fresh live `output` relation,
add 1 along the ancestor chain of the bound node. -/
def bind_create_apply (db : DB) (node : Node) (docId : Nat) (user : String) :
    DB × NodeDocument :=
  let rel1 : NodeDocument :=
    { node_id := node.id
      document_id := docId
      relation_type := COUNTED_RELATION_TYPE
      deleted_at := none
      created_by := user
      updated_by := user }
  let db1 := { db with bindings := db.bindings ++ [rel1] }
  let db2 := update_subtree_counts db1 (get_ancestor_ids db1 node.path) 1
  (db2, rel1)

/-- Service `RelationshipService.bind`: idempotent on a live relation,
revives a soft-deleted relation or creates a fresh `output` one, and in
both mutating cases adds 1 along the ancestor chain of the bound node. -/
def bind (db : DB) (nodeId docId : Nat) (user : String) :
    Except SvcError (DB × NodeDocument) := do
  if user = "" then throw .missingUser
  let some node := nodeById db nodeId | throw SvcError.nodeNotFound
  if node.deleted_at.isSome then throw SvcError.nodeNotFound
  match docById db docId with
  | none => throw SvcError.documentNotFound
  | some d => if d.deleted_at.isSome then throw SvcError.documentNotFound
  match relGet db nodeId docId with
  | some relation =>
      if relation.deleted_at.isNone then return (db, relation)
      pure (bind_revive_apply db node relation user)
  | none =>
      pure (bind_create_apply db node docId user)

/-- Service `RelationshipService.unbind`: soft-delete a live relation
and mirror the decrement on the ancestor chain when the node is live. -/
def unbind (db : DB) (nodeId docId : Nat) (user : String) :
    Except SvcError DB := do
  if user = "" then throw .missingUser
  let some relation := relGet db nodeId docId | throw SvcError.relationNotFound
  if relation.deleted_at.isSome then throw SvcError.relationNotFound
  let rel1 := { relation with deleted_at := some db.now, updated_by := user }
  let db1 := setRel db nodeId docId rel1
  let db2 :=
    match nodeById db1 nodeId with
    | some node =>
        if node.deleted_at.isNone then
          update_subtree_counts db1 (get_ancestor_ids db1 node.path) (-1)
        else db1
    | none => db1
  pure db2

/-- Public mutating operations of the tree engine, the universe the
"after every committed operation" invariant claims quantify over. -/
inductive Op where
  | create (data : NodeCreateData) (user : String)
  | update (nodeId : Nat) (data : NodeUpdateData) (user : String)
  | softDelete (nodeId : Nat) (user : String)
  | restore (nodeId : Nat) (user : String)
  | purge (nodeId : Nat) (user : String)
  | reorder (data : NodeReorderData) (user : String)
  | bindDoc (nodeId docId : Nat) (user : String)
  | unbindDoc (nodeId docId : Nat) (user : String)
deriving Repr, DecidableEq

/-- Result of one operation without the payload, `none` on failure. -/
def runOp (db : DB) : Op → Option DB
  | .create data user => ((create_node db data user).map (·.1)).toOption
  | .update nodeId data user => ((update_node db nodeId data user).map (·.1)).toOption
  | .softDelete nodeId user => (soft_delete_node db nodeId user).toOption
  | .restore nodeId user => ((restore_node db nodeId user).map (·.1)).toOption
  | .purge nodeId user => (purge_node db nodeId user).toOption
  | .reorder data user => ((reorder_children db data user).map (·.1)).toOption
  | .bindDoc nodeId docId user => ((bind db nodeId docId user).map (·.1)).toOption
  | .unbindDoc nodeId docId user => (unbind db nodeId docId user).toOption

/-- Committed state of one operation: the new state on success, the
untouched state on a rolled-back failure. -/
def applyOp (db : DB) (op : Op) : DB :=
  (runOp db op).getD db

/-- Run a sequence of operations, `none` as soon as one fails: every
operation of the sequence commits. -/
def runOps (db : DB) : List Op → Option DB
  | [] => some db
  | op :: ops => (runOp db op).bind fun db1 => runOps db1 ops

/-- Initial empty database. -/
def initialDB : DB :=
  { nodes := [], bindings := [], documents := [], nextNodeId := 1, now := 0 }

/-- Distinctness of node primary keys, the identity the ORM session
guarantees for the `nodes` table. -/
def NodupIds (db : DB) : Prop := (db.nodes.map (·.id)).Nodup

instance (db : DB) : Decidable (NodupIds db) := by
  unfold NodupIds; infer_instance

/-- Active siblings of one parent key, in stored row order. -/
def activeSiblings (db : DB) (parentId : Option Nat) : List Node :=
  db.nodes.filter fun n => parentMatches n parentId && n.isActive

/-- Density of one sibling group: the multiset of positions of the
active siblings is exactly `{0, ..., n-1}`. -/
def denseFor (db : DB) (parentId : Option Nat) : Prop :=
  ((activeSiblings db parentId).map (·.position)).Perm
    ((List.range (activeSiblings db parentId).length).map (Int.ofNat))

instance (db : DB) (parentId : Option Nat) : Decidable (denseFor db parentId) := by
  unfold denseFor; exact List.decidablePerm _ _

/-- Density of every sibling group, root level included. -/
def DenseAll (db : DB) : Prop := ∀ parentId, denseFor db parentId

/-- Count, claim side, of live counted bindings held by the node at
`root` together with its live descendants. -/
def liveSubtreeOutputCount (db : DB) (root : Path) : Int :=
  countBindingsFor db ((fetch_subtree db root false).map (·.id))

/-- Count, claim side, of live counted bindings held by the live strict
descendants of `root` only (the bound node itself excluded). -/
def liveDescendantOutputCount (db : DB) (root : Path) : Int :=
  countBindingsFor db
    ((db.nodes.filter fun n => strictUnder n.path root && n.isActive).map (·.id))

/-- View of a node row through its key and cached counter. -/
def cntView (n : Node) : Nat × Int := (n.id, n.subtree_doc_count)

/-- The in-session value of the moved row after the field writes, the
parent re-link and the fresh position of a cross-parent `update_node`
(stages 1-3 of `upd_stage4` collapsed over the single primary-key
row). -/
def updMoveNode (db : DB) (node : Node) (data : NodeUpdateData)
    (tgtParentPath : Option Path) (tgtParentId : Option Nat) : Node :=
  let n2 := { upd_n1 node data with
    parent_id := tgtParentId, parent_path := tgtParentPath }
  { n2 with position := next_position (setNode db node.id n2) tgtParentId }

/-- Distinct materialized paths across the whole table. -/
def NodupPaths (db : DB) : Prop := (db.nodes.map (·.path)).Nodup

instance (db : DB) : Decidable (NodupPaths db) := by
  unfold NodupPaths; infer_instance

/-- View of a node row through the fields every path/activity query
reads: id, path, soft-delete marker. -/
def keyView (n : Node) : Nat × Path × Option Nat := (n.id, n.path, n.deleted_at)

/-- Concrete active root node used by several witnesses. -/
def c1node : Node :=
  { id := 1, name := "r", slug := "r", type := none, parent_id := none,
    parent_path := none, path := ["r"], position := 0,
    subtree_doc_count := 0, deleted_at := none, created_by := "u",
    updated_by := "u" }

/-- Concrete active document used by several witnesses. -/
def c1doc : Document := { id := 1, deleted_at := none }

/-- Single active root node with one active document and no bindings. -/
def c1db : DB :=
  { nodes := [c1node]
    bindings := []
    documents := [c1doc]
    nextNodeId := 2
    now := 0 }

/-- Concrete soft-deleted root node used by several witnesses. -/
def c3node : Node := { c1node with deleted_at := some 0 }

/-- Concrete live output binding between node 1 and document 1. -/
def c3rel : NodeDocument :=
  { node_id := 1, document_id := 1, relation_type := "output",
    deleted_at := none, created_by := "u", updated_by := "u" }

/-- Soft-deleted root node holding one live output binding to a live
document. -/
def c3db : DB :=
  { nodes := [c3node]
    bindings := [c3rel]
    documents := [c1doc]
    nextNodeId := 2
    now := 1 }

/-- Operation chain leading to a non-dense sibling group: soft-delete a
parent whose children stay active, recreate a node at the freed path,
give it a child, then rename it — the path rewrite re-parents the
half-alive children onto the new node and collides their positions. -/
def c5Ops : List Op :=
  [ .create { name := "P", slug := "a", parent_path := none } "u"
  , .create { name := "d0", slug := "d0", parent_path := some ["a"] } "u"
  , .create { name := "d1", slug := "d1", parent_path := some ["a"] } "u"
  , .softDelete 1 "u"
  , .create { name := "Q", slug := "a", parent_path := none } "u"
  , .create { name := "e", slug := "e", parent_path := some ["a"] } "u"
  , .update 4 { slug := some "b" } "u" ]

/-- Active root node holding the live binding `c3rel` (for the bind
idempotence witness). -/
def w9db : DB :=
  { nodes := [c1node]
    bindings := [c3rel]
    documents := [c1doc]
    nextNodeId := 2
    now := 0 }

/-- Parent-and-child pair used by the cycle-guard witness. -/
def w8child : Node :=
  { id := 2, name := "b", slug := "b", type := none, parent_id := some 1,
    parent_path := some ["a"], path := ["a", "b"], position := 0,
    subtree_doc_count := 0, deleted_at := none, created_by := "u",
    updated_by := "u" }

def w8root : Node :=
  { c1node with name := "a", slug := "a", path := ["a"] }

def w8db : DB :=
  { nodes := [w8root, w8child]
    bindings := []
    documents := []
    nextNodeId := 3
    now := 0 }

def w8data : NodeUpdateData :=
  { parent_path := some ["a", "b"], parent_path_set := true }

/-- Claim-side final ordering of `reorder_children`: the nodes of the
provided ids first, in the given order, then the remaining active
siblings in their prior relative order. -/
def reorderBase (db : DB) (data : NodeReorderData) : List Node :=
  (data.ordered_ids.filterMap fun i =>
    (fetch_siblings db data.parent_id false).find? fun n => n.id == i)
  ++ ((fetch_siblings db data.parent_id false).filter
      fun n => ¬ n.id ∈ data.ordered_ids)

/-- Claim-side position rewrite of `reorder_children`: element `i` of
the final ordering receives position `i` (and a touched `updated_by`)
exactly when its position differs. -/
def reorderSeq (db : DB) (data : NodeReorderData) (user : String) : List Node :=
  (reorderBase db data).enum.map fun p =>
    if p.2.position ≠ (p.1 : Int) then
      { p.2 with position := (p.1 : Int), updated_by := user }
    else p.2

/-- Row rewrite the table receives from `reorder_children`. -/
def reorderF (db : DB) (data : NodeReorderData) (user : String) : Node → Node :=
  fun m =>
    match (reorderSeq db data user).find? fun s => s.id == m.id with
    | some s => s
    | none => m

/-- Two active root siblings for the reorder witness. -/
def w6b : Node :=
  { c1node with id := 2, name := "s", slug := "s", path := ["s"], position := 1 }

def w6db : DB :=
  { nodes := [c1node, w6b]
    bindings := []
    documents := []
    nextNodeId := 3
    now := 0 }

def w6data : NodeReorderData := { parent_id := none, ordered_ids := [2] }

/-- Concrete move scenario: `docs` and `guides` roots, `intro` under
`docs` holding one live output binding; `intro` is moved under
`guides`. -/
def c2docs : Node :=
  { id := 1, name := "docs", slug := "docs", type := none, parent_id := none,
    parent_path := none, path := ["docs"], position := 0,
    subtree_doc_count := 1, deleted_at := none, created_by := "u",
    updated_by := "u" }

def c2guides : Node :=
  { id := 2, name := "guides", slug := "guides", type := none,
    parent_id := none, parent_path := none, path := ["guides"],
    position := 1, subtree_doc_count := 0, deleted_at := none,
    created_by := "u", updated_by := "u" }

def c2intro : Node :=
  { id := 3, name := "intro", slug := "intro", type := none,
    parent_id := some 1, parent_path := some ["docs"],
    path := ["docs", "intro"], position := 0, subtree_doc_count := 0,
    deleted_at := none, created_by := "u", updated_by := "u" }

def c2rel : NodeDocument :=
  { node_id := 3, document_id := 10, relation_type := "output",
    deleted_at := none, created_by := "u", updated_by := "u" }

def c2db : DB :=
  { nodes := [c2docs, c2guides, c2intro]
    bindings := [c2rel]
    documents := [{ id := 10, deleted_at := none }]
    nextNodeId := 4
    now := 5 }

def c2data : NodeUpdateData :=
  { name := none, slug := none, parent_path := some ["guides"],
    parent_path_set := true, type := none }

/-- The in-session value of the updated row after a parent re-link that
keeps the same parent id (stages 1-2 collapsed, no fresh position). -/
def updRelinkNode (node : Node) (data : NodeUpdateData)
    (tgtParentPath : Option Path) (tgtParentId : Option Nat) : Node :=
  { upd_n1 node data with
    parent_id := tgtParentId, parent_path := tgtParentPath }

/-- View of a node row through the fields the descendant rewrite is
specified on: id, path, parent path, parent id. -/
def pview (n : Node) : Nat × Path × Option Path × Option Nat :=
  (n.id, n.path, n.parent_path, n.parent_id)

/-- Concrete rewrite scenario: `intro` (holding descendant `deep`) is
moved from `docs` under `guides`. -/
def c4docs : Node :=
  { id := 1, name := "docs", slug := "docs", type := none, parent_id := none,
    parent_path := none, path := ["docs"], position := 0,
    subtree_doc_count := 0, deleted_at := none, created_by := "u",
    updated_by := "u" }

def c4guides : Node :=
  { id := 2, name := "guides", slug := "guides", type := none,
    parent_id := none, parent_path := none, path := ["guides"],
    position := 1, subtree_doc_count := 0, deleted_at := none,
    created_by := "u", updated_by := "u" }

def c4intro : Node :=
  { id := 3, name := "intro", slug := "intro", type := none,
    parent_id := some 1, parent_path := some ["docs"],
    path := ["docs", "intro"], position := 0, subtree_doc_count := 0,
    deleted_at := none, created_by := "u", updated_by := "u" }

def c4deep : Node :=
  { id := 4, name := "deep", slug := "deep", type := none,
    parent_id := some 3, parent_path := some ["docs", "intro"],
    path := ["docs", "intro", "deep"], position := 0,
    subtree_doc_count := 0, deleted_at := none, created_by := "u",
    updated_by := "u" }

def c4db : DB :=
  { nodes := [c4docs, c4guides, c4intro, c4deep]
    bindings := []
    documents := []
    nextNodeId := 5
    now := 7 }

def c4data : NodeUpdateData :=
  { name := none, slug := none, parent_path := some ["guides"],
    parent_path_set := true, type := none }

/-- Reduction toolkit for the Except do-chains of the services. -/
theorem throw_eq_error {α : Type} (e : SvcError) :
    (throw e : Except SvcError α) = .error e := rfl

theorem error_bind {α β : Type} (e : SvcError) (f : α → Except SvcError β) :
    (Except.error e : Except SvcError α) >>= f = .error e := rfl

theorem ok_bind {α β : Type} (a : α) (f : α → Except SvcError β) :
    (Except.ok a : Except SvcError α) >>= f = f a := rfl

theorem map_error {α β : Type} (f : α → β) (e : SvcError) :
    (f <$> (Except.error e : Except SvcError α)) = .error e := rfl

theorem map_ok {α β : Type} (f : α → β) (a : α) :
    (f <$> (Except.ok a : Except SvcError α)) = .ok (f a) := rfl

theorem pure_eq_ok {α : Type} (a : α) : (pure a : Except SvcError α) = .ok a := rfl

/-- C9 -/
theorem bind_idempotent_on_active_binding (db : DB) (nodeId docId : Nat)
    (user : String) (node : Node) (doc : Document) (rel : NodeDocument)
    (hu : user ≠ "") (hn : nodeById db nodeId = some node)
    (hact : node.deleted_at = none)
    (hd : docById db docId = some doc) (hdact : doc.deleted_at = none)
    (hr : relGet db nodeId docId = some rel) (hrel : rel.deleted_at = none) :
    bind db nodeId docId user = .ok (db, rel) := by
  unfold bind
  simp [hu, hn, hact, hd, hdact, hr, hrel]
  rfl

/-- C10 -/
theorem restore_noop_on_active (db : DB) (nodeId : Nat) (user : String)
    (node : Node) (hu : user ≠ "") (hn : nodeById db nodeId = some node) :
    (node.deleted_at = none → restore_node db nodeId user = .ok (db, node)) ∧
      restore_node db nodeId user ≠ .error SvcError.nodeNotFound := by
  have hok : node.deleted_at = none → restore_node db nodeId user = .ok (db, node) := by
    intro hact
    unfold restore_node
    simp [hu, hn, hact]
    rfl
  refine ⟨hok, ?_⟩
  by_cases hact : node.deleted_at = none
  · rw [hok hact]; simp
  · unfold restore_node
    by_cases hp : has_active_path db node.path (some node.id)
    · simp [hu, hn, Option.isNone_iff_eq_none, hact, hp, throw_eq_error, error_bind,
        ok_bind, map_error, map_ok, pure_eq_ok]
    · by_cases hnm : has_active_name db node.parent_path node.name (some node.id)
      · simp [hu, hn, Option.isNone_iff_eq_none, hact, hp, hnm, throw_eq_error,
          error_bind, ok_bind, map_error, map_ok, pure_eq_ok]
      · simp [hu, hn, Option.isNone_iff_eq_none, hact, hp, hnm, throw_eq_error,
          error_bind, ok_bind, map_error, map_ok, pure_eq_ok]

/-- C8 -/
theorem update_rejects_self_or_subtree_parent (db : DB) (nodeId : Nat)
    (data : NodeUpdateData) (user : String) (node p : Node) (pp : Path)
    (hu : user ≠ "") (hn : nodeById db nodeId = some node)
    (hact : node.deleted_at = none)
    (hslug : ∀ s, data.slug = some s → validSlug s)
    (hset : data.parent_path_set = true)
    (hpp : truthyPath data.parent_path = some pp)
    (hp : get_active_by_path db pp = some p) :
    (p.id = node.id →
      update_node db nodeId data user = .error (.invalidOperation msgSelfParent)) ∧
    (p.id ≠ node.id → strictUnder p.path node.path →
      update_node db nodeId data user = .error (.invalidOperation msgOwnSubtree)) ∧
    (p.id ≠ node.id → ¬ strictUnder p.path node.path →
      ∀ m, update_node db nodeId data user ≠ .error (.invalidOperation m)) := by
  have hvs : ∀ s, data.slug = some s → validSlug s = true := hslug
  refine ⟨?_, ?_, ?_⟩
  · intro hself
    unfold update_node
    cases hds : data.slug with
    | none =>
        simp [hu, hn, hact, hset, hpp, hp, hself, hds, throw_eq_error, error_bind,
          ok_bind, map_error, map_ok, pure_eq_ok]
    | some s =>
        simp [hu, hn, hact, hset, hpp, hp, hself, hds, hvs s hds, throw_eq_error,
          error_bind, ok_bind, map_error, map_ok, pure_eq_ok]
  · intro hself hsub
    unfold update_node
    cases hds : data.slug with
    | none =>
        simp [hu, hn, hact, hset, hpp, hp, hself, hsub, hds, throw_eq_error,
          error_bind, ok_bind, map_error, map_ok, pure_eq_ok]
    | some s =>
        simp [hu, hn, hact, hset, hpp, hp, hself, hsub, hds, hvs s hds,
          throw_eq_error, error_bind, ok_bind, map_error, map_ok, pure_eq_ok]
  · intro hself hsub m
    unfold update_node
    by_cases hnm : has_active_name db (some p.path)
        (data.name.getD node.name) (some node.id)
    · cases hds : data.slug with
      | none =>
          simp [hu, hn, hact, hset, hpp, hp, hself, hsub, hnm, hds, throw_eq_error,
            error_bind, ok_bind, map_error, map_ok, pure_eq_ok]
      | some s =>
          simp [hu, hn, hact, hset, hpp, hp, hself, hsub, hnm, hds, hvs s hds,
            throw_eq_error, error_bind, ok_bind, map_error, map_ok, pure_eq_ok]
    · by_cases hpc : has_active_path db (p.path ++ [data.slug.getD node.slug])
          (some node.id)
      · cases hds : data.slug with
        | none =>
            rw [hds, Option.getD_none] at hpc
            simp [hu, hn, hact, hset, hpp, hp, hself, hsub, hnm, hpc, hds,
              throw_eq_error, error_bind, ok_bind, map_error, map_ok, pure_eq_ok]
        | some s =>
            rw [hds, Option.getD_some] at hpc
            simp [hu, hn, hact, hset, hpp, hp, hself, hsub, hnm, hpc, hds,
              hvs s hds, throw_eq_error, error_bind, ok_bind, map_error, map_ok,
              pure_eq_ok]
      · cases hds : data.slug with
        | none =>
            rw [hds, Option.getD_none] at hpc
            simp [hu, hn, hact, hset, hpp, hp, hself, hsub, hnm, hpc, hds,
              throw_eq_error, error_bind, ok_bind, map_error, map_ok, pure_eq_ok]
        | some s =>
            rw [hds, Option.getD_some] at hpc
            simp [hu, hn, hact, hset, hpp, hp, hself, hsub, hnm, hpc, hds,
              hvs s hds, throw_eq_error, error_bind, ok_bind, map_error, map_ok,
              pure_eq_ok]

theorem idIndex_eq_none {ids : List Nat} {x : Nat} (h : x ∉ ids) :
    idIndex ids x = none := by
  induction ids with
  | nil => rfl
  | cons y ys ih =>
      simp only [idIndex]
      rw [if_neg (by intro he; exact h (he ▸ List.mem_cons_self y ys)),
        ih (fun hm => h (List.mem_cons_of_mem y hm))]
      rfl

theorem idIndex_nodup (ids : List Nat) (h : ids.Nodup)
    (i : Nat) (hi : i < ids.length) : idIndex ids ids[i] = some i := by
  induction ids generalizing i with
  | nil => simp at hi
  | cons y ys ih =>
      cases i with
      | zero => simp [idIndex]
      | succ j =>
          have hj : j < ys.length := by simpa using hi
          have hy : y ≠ ys[j] := by
            intro he
            exact (List.nodup_cons.mp h).1 (he ▸ ys.getElem_mem hj)
          simp only [idIndex, List.getElem_cons_succ]
          rw [if_neg hy, ih (List.nodup_cons.mp h).2 j hj]
          rfl

theorem idIndex_mem {ids : List Nat} {x i : Nat} (h : idIndex ids x = some i) :
    i < ids.length ∧ ids[i]! = x := by
  induction ids generalizing i with
  | nil => simp [idIndex] at h
  | cons y ys ih =>
      by_cases he : y = x
      · simp [idIndex, he] at h
        subst h
        simp [he]
      · simp only [idIndex, if_neg he] at h
        cases hr : idIndex ys x with
        | none => rw [hr] at h; simp at h
        | some j =>
            rw [hr] at h
            simp at h
            subst h
            obtain ⟨hj, hv⟩ := ih hr
            refine ⟨by simpa using Nat.succ_lt_succ hj, ?_⟩
            simpa [List.getElem!_cons_succ] using hv

theorem posAssign_id (sibs : List Node) (n : Node) : (posAssign sibs n).id = n.id := by
  unfold posAssign
  cases idIndex (sibs.map (·.id)) n.id with
  | none => rfl
  | some i => by_cases h : n.position ≠ (i : Int) <;> simp [h]

theorem posAssign_parent_id (sibs : List Node) (n : Node) :
    (posAssign sibs n).parent_id = n.parent_id := by
  unfold posAssign
  cases idIndex (sibs.map (·.id)) n.id with
  | none => rfl
  | some i => by_cases h : n.position ≠ (i : Int) <;> simp [h]

theorem posAssign_deleted_at (sibs : List Node) (n : Node) :
    (posAssign sibs n).deleted_at = n.deleted_at := by
  unfold posAssign
  cases idIndex (sibs.map (·.id)) n.id with
  | none => rfl
  | some i => by_cases h : n.position ≠ (i : Int) <;> simp [h]

theorem posAssign_path (sibs : List Node) (n : Node) :
    (posAssign sibs n).path = n.path := by
  unfold posAssign
  cases idIndex (sibs.map (·.id)) n.id with
  | none => rfl
  | some i => by_cases h : n.position ≠ (i : Int) <;> simp [h]

theorem posAssign_count (sibs : List Node) (n : Node) :
    (posAssign sibs n).subtree_doc_count = n.subtree_doc_count := by
  unfold posAssign
  cases idIndex (sibs.map (·.id)) n.id with
  | none => rfl
  | some i => by_cases h : n.position ≠ (i : Int) <;> simp [h]

theorem posAssign_not_mem {sibs : List Node} {n : Node}
    (h : n.id ∉ sibs.map (·.id)) : posAssign sibs n = n := by
  unfold posAssign
  rw [idIndex_eq_none h]

theorem posAssign_position {sibs : List Node} {n : Node} {i : Nat}
    (h : idIndex (sibs.map (·.id)) n.id = some i) :
    (posAssign sibs n).position = (i : Int) := by
  unfold posAssign
  rw [h]
  by_cases hp : n.position ≠ (i : Int)
  · simp [hp]
  · simp at hp
    simp [hp]

theorem insertSorted_perm {α : Type} (le : α → α → Bool) (a : α) (l : List α) :
    (insertSorted le a l).Perm (a :: l) := by
  induction l with
  | nil => exact List.Perm.refl _
  | cons b t ih =>
      unfold insertSorted
      by_cases h : le a b
      · rw [if_pos h]
      · rw [if_neg h]
        exact (List.Perm.cons b ih).trans (List.Perm.swap a b t)

theorem sortByKey_perm {α : Type} (le : α → α → Bool) (l : List α) :
    (sortByKey le l).Perm l := by
  induction l with
  | nil => exact List.Perm.refl _
  | cons a t ih =>
      show (insertSorted le a (sortByKey le t)).Perm (a :: t)
      exact (insertSorted_perm le a (sortByKey le t)).trans (List.Perm.cons a ih)

theorem fetch_siblings_active (db : DB) (parentId : Option Nat) :
    fetch_siblings db parentId false
      = sortByKey posIdLe (activeSiblings db parentId) := by
  simp [fetch_siblings, activeSiblings]

/-- Active-sibling ids are distinct whenever the table keys are. -/
theorem activeSiblings_nodup_ids (db : DB) (parentId : Option Nat)
    (h : NodupIds db) : ((activeSiblings db parentId).map (·.id)).Nodup := by
  unfold NodupIds at h
  exact ((List.filter_sublist db.nodes).map (·.id)).nodup h

/-- Two rows of a table with distinct keys and the same id coincide. -/
theorem eq_of_mem_of_id_eq {db : DB} (h : NodupIds db) {a b : Node}
    (ha : a ∈ db.nodes) (hb : b ∈ db.nodes) (hid : a.id = b.id) : a = b := by
  classical
  have := List.inj_on_of_nodup_map h ha hb hid
  exact this

theorem normalize_nodes (db : DB) (pid : Option Nat) :
    (normalize_positions db pid).nodes
      = db.nodes.map (posAssign (fetch_siblings db pid false)) := rfl

theorem normalize_bindings (db : DB) (pid : Option Nat) :
    (normalize_positions db pid).bindings = db.bindings := rfl

/-- Sibling groups transport along a pointwise table rewrite that keeps
`parent_id` and `deleted_at`. -/
theorem activeSiblings_map (db : DB) (F : Node → Node) (g : Option Nat)
    (hF : ∀ n ∈ db.nodes,
      (F n).parent_id = n.parent_id ∧ (F n).deleted_at = n.deleted_at) :
    activeSiblings { db with nodes := db.nodes.map F } g
      = (activeSiblings db g).map F := by
  unfold activeSiblings
  show List.filter _ (db.nodes.map F) = _
  rw [List.filter_map]
  congr 1
  apply List.filter_congr
  intro n hn
  simp only [Function.comp_apply, parentMatches, Node.isActive,
    (hF n hn).1, (hF n hn).2]

theorem posAssign_keeps (sibs : List Node) :
    ∀ n, (posAssign sibs n).parent_id = n.parent_id ∧
      (posAssign sibs n).deleted_at = n.deleted_at :=
  fun n => ⟨posAssign_parent_id sibs n, posAssign_deleted_at sibs n⟩

/-- Core fact behind the density invariant: `normalize_positions`
rewrites the positions of the targeted active sibling group to exactly
`0, 1, ..., n-1`. -/
theorem normalize_denseFor (db : DB) (pid : Option Nat) (h : NodupIds db) :
    denseFor (normalize_positions db pid) pid := by
  classical
  set A := activeSiblings db pid with hA
  set sibs := fetch_siblings db pid false with hsibs
  have hperm : sibs.Perm A := by
    rw [hsibs, fetch_siblings_active, hA]
    exact sortByKey_perm _ _
  have hgroups : activeSiblings (normalize_positions db pid) pid
      = A.map (posAssign sibs) := by
    rw [normalize_positions]
    exact activeSiblings_map db (posAssign sibs) pid
      (fun n _ => posAssign_keeps sibs n)
  have hnodupA : (A.map (·.id)).Nodup := activeSiblings_nodup_ids db pid h
  have hnodups : (sibs.map (·.id)).Nodup :=
    ((hperm.map (·.id)).nodup_iff).mpr hnodupA
  have hlen : (A.map (posAssign sibs)).length = sibs.length := by
    rw [List.length_map, hperm.length_eq]
  unfold denseFor
  rw [hgroups, hlen]
  have hmm : (A.map (posAssign sibs)).map (·.position)
      = A.map fun a => (posAssign sibs a).position := by
    rw [List.map_map]
    rfl
  rw [hmm]
  have hps : (A.map fun a => (posAssign sibs a).position).Perm
      (sibs.map fun a => (posAssign sibs a).position) :=
    (hperm.map _).symm
  refine hps.trans ?_
  have : (sibs.map fun a => (posAssign sibs a).position)
      = (List.range sibs.length).map (Int.ofNat) := by
    apply List.ext_getElem
    · simp
    · intro i hi hj
      have hi' : i < sibs.length := by simpa using hi
      have hilen : i < (sibs.map (·.id)).length := by simpa using hi'
      have hid : (sibs.map (·.id))[i] = sibs[i].id := by
        simp
      have hidx : idIndex (sibs.map (·.id)) sibs[i].id = some i := by
        have := idIndex_nodup (sibs.map (·.id)) hnodups i hilen
        rwa [hid] at this
      simp only [List.getElem_map, List.getElem_range]
      exact posAssign_position hidx
  rw [this]

/-- Sibling groups other than the renormalized one are untouched. -/
theorem normalize_group_other (db : DB) (pid g : Option Nat) (h : NodupIds db)
    (hg : g ≠ pid) :
    activeSiblings (normalize_positions db pid) g = activeSiblings db g := by
  classical
  set sibs := fetch_siblings db pid false with hsibs
  have hgroups : activeSiblings (normalize_positions db pid) g
      = (activeSiblings db g).map (posAssign sibs) := by
    rw [normalize_positions]
    exact activeSiblings_map db (posAssign sibs) g
      (fun n _ => posAssign_keeps sibs n)
  rw [hgroups]
  have : ∀ n ∈ activeSiblings db g, posAssign sibs n = n := by
    intro n hn
    have hn' : n ∈ db.nodes ∧ (parentMatches n g && n.isActive) = true :=
      List.mem_filter.mp hn
    apply posAssign_not_mem
    intro hmem
    obtain ⟨s, hs, hsid⟩ := List.mem_map.mp hmem
    have hsA : s ∈ activeSiblings db pid := by
      have hperm : sibs.Perm (activeSiblings db pid) := by
        rw [hsibs, fetch_siblings_active]
        exact sortByKey_perm _ _
      exact hperm.mem_iff.mp hs
    have hs' : s ∈ db.nodes ∧ (parentMatches s pid && s.isActive) = true :=
      List.mem_filter.mp hsA
    have : s = n := eq_of_mem_of_id_eq h hs'.1 hn'.1 hsid
    subst this
    have h1 : s.parent_id = g := by
      have h2 := hn'.2
      simp [parentMatches, Node.isActive] at h2
      exact h2.1
    have h2 : s.parent_id = pid := by
      have h3 := hs'.2
      simp [parentMatches, Node.isActive] at h3
      exact h3.1
    exact hg (h1 ▸ h2)
  calc (activeSiblings db g).map (posAssign sibs)
      = (activeSiblings db g).map id := List.map_congr_left (by simpa using this)
    _ = activeSiblings db g := List.map_id _

theorem NodupIds_filter (db : DB) (bs : List NodeDocument) (p : Node → Bool)
    (h : NodupIds db) :
    NodupIds { db with nodes := db.nodes.filter p, bindings := bs } := by
  unfold NodupIds at h ⊢
  exact ((List.filter_sublist db.nodes).map (·.id)).nodup h

/-- C7 -/
theorem purge_requires_soft_delete_and_erases_subtree (db : DB) (nodeId : Nat)
    (user : String) (node : Node)
    (hu : user ≠ "") (hn : nodeById db nodeId = some node)
    (hnodup : NodupIds db) :
    (node.deleted_at = none →
      purge_node db nodeId user
        = .error (.invalidOperation msgPurgeNeedsSoftDelete)) ∧
    (node.deleted_at ≠ none →
      ∃ db', purge_node db nodeId user = .ok db' ∧
        (∀ m ∈ db'.nodes, ¬ inSubtree m.path node.path) ∧
        (∀ b ∈ db'.bindings, ∀ m ∈ db.nodes,
          inSubtree m.path node.path → b.node_id ≠ m.id) ∧
        denseFor db' node.parent_id) := by
  constructor
  · intro hact
    unfold purge_node
    simp [hu, hn, hact, throw_eq_error, error_bind, ok_bind, pure_eq_ok]
  · intro hdel
    have hisN : node.deleted_at.isNone = false := by
      cases hx : node.deleted_at with
      | none => exact absurd hx hdel
      | some t => rfl
    have heq : purge_node db nodeId user = .ok (purge_apply db node) := by
      unfold purge_node
      simp [hu, hn, hisN, throw_eq_error, error_bind, ok_bind, pure_eq_ok]
    set removedIds := node.id :: (fetch_subtree db node.path true).map (·.id)
      with hrem
    set dbA : DB :=
      { db with
        bindings := db.bindings.filter fun b => ¬ b.node_id ∈ removedIds
        nodes := db.nodes.filter fun n => ¬ n.id ∈ removedIds } with hdbA
    have happ : purge_apply db node = normalize_positions dbA node.parent_id := rfl
    rw [happ] at heq
    refine ⟨_, heq, ?_, ?_, ?_⟩
    · intro m hm
      rw [normalize_nodes] at hm
      obtain ⟨m0, hm0, rfl⟩ := List.mem_map.mp hm
      rw [posAssign_path]
      have hm0' := List.mem_filter.mp hm0
      intro hins
      have hnotin : ¬ m0.id ∈ removedIds := by simpa using hm0'.2
      apply hnotin
      rw [hrem]
      apply List.mem_cons_of_mem
      exact List.mem_map.mpr ⟨m0,
        List.mem_filter.mpr ⟨hm0'.1, by simp [fetch_subtree, hins]⟩, rfl⟩
    · intro b hb m hm hins
      rw [normalize_bindings] at hb
      have hb' := List.mem_filter.mp hb
      have hnotin : ¬ b.node_id ∈ removedIds := by simpa using hb'.2
      intro hbm
      apply hnotin
      rw [hbm, hrem]
      apply List.mem_cons_of_mem
      exact List.mem_map.mpr ⟨m,
        List.mem_filter.mpr ⟨hm, by simp [fetch_subtree, hins]⟩, rfl⟩
    · exact normalize_denseFor dbA node.parent_id
        (NodupIds_filter db _ _ hnodup)

/-- Find-by-id commutes with an id-preserving pointwise table rewrite. -/
theorem find?_id_map (l : List Node) (F : Node → Node)
    (hF : ∀ n, (F n).id = n.id) (h : (l.map (·.id)).Nodup)
    (m : Node) (hm : m ∈ l) :
    (l.map F).find? (fun n => n.id == m.id) = some (F m) := by
  induction l with
  | nil => cases hm
  | cons a t ih =>
      have h' : (a.id :: t.map (·.id)).Nodup := by
        rw [← List.map_cons]
        exact h
      have hnd := List.nodup_cons.mp h'
      rcases List.mem_cons.mp hm with rfl | hmt
      · simp [List.find?, hF]
      · have hane : a.id ≠ m.id := by
          intro he
          exact hnd.1 (he ▸ List.mem_map.mpr ⟨m, hmt, rfl⟩)
        simp only [List.map_cons, List.find?]
        rw [show ((F a).id == m.id) = false by
          simp [hF, hane]]
        exact ih hnd.2 hmt

/-- Membership of a table key in the modelled ancestor chain is exactly
the path-prefix relation. -/
theorem mem_get_ancestor_ids (db : DB) (h : NodupIds db) (m : Node)
    (hm : m ∈ db.nodes) (p : Path) :
    m.id ∈ get_ancestor_ids db p ↔ m.path <+: p := by
  unfold get_ancestor_ids
  constructor
  · intro hmem
    obtain ⟨x, hx, hxid⟩ := List.mem_map.mp hmem
    have hx' := List.mem_filter.mp hx
    have hxm : x = m := eq_of_mem_of_id_eq h hx'.1 hm hxid
    subst hxm
    simpa using hx'.2
  · intro hpre
    exact List.mem_map.mpr ⟨m, List.mem_filter.mpr ⟨hm, by simpa using hpre⟩, rfl⟩

/-- Id projections of view-based filters agree on tables with the same
row views. -/
theorem map_id_filter_eq_of_keyView (p : Nat × Path × Option Nat → Bool) :
    ∀ (l l' : List Node), l.map keyView = l'.map keyView →
      (l.filter fun n => p (keyView n)).map (·.id)
        = (l'.filter fun n => p (keyView n)).map (·.id)
  | [], [], _ => rfl
  | [], _ :: _, h => by simp at h
  | _ :: _, [], h => by simp at h
  | a :: t, a' :: t', h => by
      simp only [List.map_cons, List.cons.injEq] at h
      have hid : a.id = a'.id := congrArg Prod.fst h.1
      have hrest := map_id_filter_eq_of_keyView p t t' h.2
      simp only [List.filter_cons, h.1]
      cases hp : p (keyView a') with
      | true => simp [hid, hrest]
      | false => exact hrest

theorem fetch_subtree_ids_congr (db db' : DB) (root : Path) (incl : Bool)
    (h : db.nodes.map keyView = db'.nodes.map keyView) :
    (fetch_subtree db root incl).map (·.id)
      = (fetch_subtree db' root incl).map (·.id) := by
  have := map_id_filter_eq_of_keyView
    (fun v => decide (inSubtree v.2.1 root) && (incl || v.2.2.isNone))
    db.nodes db'.nodes h
  simpa [fetch_subtree, keyView, Node.isActive] using this

theorem get_ancestor_ids_congr (db db' : DB) (p : Path)
    (h : db.nodes.map keyView = db'.nodes.map keyView) :
    get_ancestor_ids db p = get_ancestor_ids db' p := by
  have := map_id_filter_eq_of_keyView
    (fun v => decide (v.2.1 <+: p)) db.nodes db'.nodes h
  simpa [get_ancestor_ids, keyView] using this

theorem countBindingsFor_congr (db db' : DB)
    (hb : db.bindings = db'.bindings) (hd : db.documents = db'.documents)
    (ids : List Nat) : countBindingsFor db ids = countBindingsFor db' ids := by
  unfold countBindingsFor countedBinding
  rw [hb, hd]

theorem countBindingsFor_nil (db : DB) : countBindingsFor db [] = 0 := by
  unfold countBindingsFor
  simp

/-- View preservation of the normalize / counter rewrites. -/
theorem keyView_posAssign (sibs : List Node) (n : Node) :
    keyView (posAssign sibs n) = keyView n := by
  unfold keyView
  rw [posAssign_id, posAssign_path, posAssign_deleted_at]

theorem keyView_update_subtree_counts (db : DB) (ids : List Nat) (d : Int) :
    ((update_subtree_counts db ids d).nodes).map keyView
      = db.nodes.map keyView := by
  unfold update_subtree_counts
  show (db.nodes.map _).map keyView = _
  rw [List.map_map]
  apply List.map_congr_left
  intro n _
  by_cases h : n.id ∈ ids <;> simp [keyView, h]

theorem keyView_normalize (db : DB) (pid : Option Nat) :
    ((normalize_positions db pid).nodes).map keyView = db.nodes.map keyView := by
  rw [normalize_nodes, List.map_map]
  apply List.map_congr_left
  intro n _
  exact keyView_posAssign _ n

/-- Row-level effect of the modelled `update_subtree_counts` on a table
with distinct keys. -/
theorem update_counts_row (db : DB) (ids : List Nat)
    (d : Int) (hnodup : NodupIds db) (m : Node) (hm : m ∈ db.nodes) :
    nodeById (update_subtree_counts db ids d) m.id
      = some (if m.id ∈ ids then
          { m with subtree_doc_count := m.subtree_doc_count + d } else m) := by
  classical
  have hFid : ∀ n : Node,
      ((fun n : Node => if n.id ∈ ids then
        { n with subtree_doc_count := n.subtree_doc_count + d } else n) n).id
        = n.id := by
    intro n
    by_cases hc : n.id ∈ ids <;> simp [hc]
  show (db.nodes.map (fun n : Node => if n.id ∈ ids then
      { n with subtree_doc_count := n.subtree_doc_count + d } else n)).find?
      (fun n => n.id == m.id) = _
  exact find?_id_map db.nodes _ hFid hnodup m hm

/-- C1 (amended): a state-changing bind adds 1 to the bound node itself
and to every ancestor by path prefix, and touches no other counter and
no other node field. -/
theorem bind_increments_ancestors_and_self (db : DB) (nodeId docId : Nat)
    (user : String) (node : Node) (doc : Document)
    (hu : user ≠ "") (hn : nodeById db nodeId = some node)
    (hact : node.deleted_at = none)
    (hd : docById db docId = some doc) (hdact : doc.deleted_at = none)
    (hnodup : NodupIds db)
    (hrel : relGet db nodeId docId = none ∨
      ∃ r, relGet db nodeId docId = some r ∧ r.deleted_at ≠ none) :
    ∃ db' rel, bind db nodeId docId user = .ok (db', rel) ∧
      ∀ m ∈ db.nodes, ∃ m', nodeById db' m.id = some m' ∧
        m'.subtree_doc_count
          = m.subtree_doc_count + (if m.path <+: node.path then 1 else 0) ∧
        m'.path = m.path ∧ m'.parent_id = m.parent_id ∧
        m'.position = m.position ∧ m'.deleted_at = m.deleted_at := by
  classical
  have main : ∀ (bs : List NodeDocument),
      ∀ m ∈ db.nodes, ∃ m',
        nodeById (update_subtree_counts { db with bindings := bs }
          (get_ancestor_ids db node.path) 1) m.id = some m' ∧
        m'.subtree_doc_count
          = m.subtree_doc_count + (if m.path <+: node.path then 1 else 0) ∧
        m'.path = m.path ∧ m'.parent_id = m.parent_id ∧
        m'.position = m.position ∧ m'.deleted_at = m.deleted_at := by
    intro bs m hm
    have hrow : nodeById (update_subtree_counts { db with bindings := bs }
        (get_ancestor_ids db node.path) 1) m.id
        = some (if m.id ∈ get_ancestor_ids db node.path then
            { m with subtree_doc_count := m.subtree_doc_count + 1 } else m) :=
      update_counts_row { db with bindings := bs }
        (get_ancestor_ids db node.path) 1 hnodup m hm
    by_cases hc : m.id ∈ get_ancestor_ids db node.path
    · rw [if_pos hc] at hrow
      refine ⟨_, hrow, ?_, rfl, rfl, rfl, rfl⟩
      rw [if_pos ((mem_get_ancestor_ids db hnodup m hm node.path).mp hc)]
    · rw [if_neg hc] at hrow
      refine ⟨_, hrow, ?_, rfl, rfl, rfl, rfl⟩
      rw [if_neg
        (fun hp => hc ((mem_get_ancestor_ids db hnodup m hm node.path).mpr hp))]
      simp
  rcases hrel with hnone | ⟨r, hr, hrdel⟩
  · have heq : bind db nodeId docId user
        = .ok (bind_create_apply db node docId user) := by
      unfold bind
      simp [hu, hn, hact, hd, hdact, hnone, throw_eq_error, error_bind, ok_bind,
        map_error, map_ok, pure_eq_ok]
    refine ⟨_, _, heq, ?_⟩
    intro m hm
    exact main _ m hm
  · have hrdel' : r.deleted_at.isNone = false := by
      cases hx : r.deleted_at with
      | none => exact absurd hx hrdel
      | some t => rfl
    have heq : bind db nodeId docId user
        = .ok (bind_revive_apply db node r user) := by
      unfold bind
      simp [hu, hn, hact, hd, hdact, hr, hrdel', throw_eq_error, error_bind,
        ok_bind, map_error, map_ok, pure_eq_ok]
    refine ⟨_, _, heq, ?_⟩
    intro m hm
    exact main _ m hm

/-- C3 (amended): a successful restore recomputes the restored node's
cached counter as the live counted bindings of its live subtree, the
node itself included. -/
theorem restore_recomputes_count_including_self (db : DB) (nodeId : Nat)
    (user : String) (node : Node) (db' : DB) (n' : Node)
    (hu : user ≠ "") (hnodup : NodupIds db)
    (hn : nodeById db nodeId = some node)
    (hdel : node.deleted_at ≠ none)
    (hok : restore_node db nodeId user = .ok (db', n')) :
    n'.path = node.path ∧
      n'.subtree_doc_count = liveSubtreeOutputCount db' node.path := by
  classical
  have hdelN : node.deleted_at.isNone = false := by
    cases hx : node.deleted_at with
    | none => exact absurd hx hdel
    | some t => rfl
  by_cases hp : has_active_path db node.path (some node.id)
  · exfalso
    unfold restore_node at hok
    simp [hu, hn, hdelN, hp, throw_eq_error, error_bind, ok_bind, map_error,
      map_ok, pure_eq_ok] at hok
  by_cases hnm : has_active_name db node.parent_path node.name (some node.id)
  · exfalso
    unfold restore_node at hok
    simp [hu, hn, hdelN, hp, hnm, throw_eq_error, error_bind, ok_bind,
      map_error, map_ok, pure_eq_ok] at hok
  have happ : restore_apply db node user = (db', n') := by
    unfold restore_node at hok
    simpa [hu, hn, hdelN, hp, hnm, throw_eq_error, error_bind, ok_bind,
      map_error, map_ok, pure_eq_ok] using hok
  -- unfold the apply pipeline
  set n1 : Node := { node with deleted_at := none, updated_by := user } with hn1
  set db1 : DB := setNode db node.id n1 with hdb1
  set direct : Int := directOutputCount db1 n1.id with hdirect
  set db2 : DB :=
    (match truthyPath n1.parent_path with
     | some pp =>
         if direct ≠ 0 then
           update_subtree_counts db1 (get_ancestor_ids db1 pp) direct
         else db1
     | none => db1) with hdb2
  set subtreeIds : List Nat := (fetch_subtree db2 n1.path false).map (·.id)
    with hsub
  set n2 : Node :=
    { n1 with
      subtree_doc_count :=
        if subtreeIds ≠ [] then countBindingsFor db2 subtreeIds else 0 } with hn2
  set db3 : DB := setNode db2 n1.id n2 with hdb3
  have happ2 : restore_apply db node user
      = (normalize_positions db3 n2.parent_id,
         (nodeById (normalize_positions db3 n2.parent_id) n1.id).getD n2) := rfl
  rw [happ2] at happ
  have hdbeq : db' = normalize_positions db3 n2.parent_id :=
    (congrArg Prod.fst happ).symm
  have hneq : n' = (nodeById (normalize_positions db3 n2.parent_id) n1.id).getD n2 :=
    (congrArg Prod.snd happ).symm
  subst hdbeq
  subst hneq
  -- structural transport facts
  have hG2 : ∃ G2 : Node → Node, db2.nodes = db1.nodes.map G2 ∧
      ∀ n, keyView (G2 n) = keyView n := by
    rw [hdb2]
    cases truthyPath n1.parent_path with
    | none => exact ⟨id, by simp, fun n => rfl⟩
    | some pp =>
        by_cases hc : direct ≠ 0
        · refine ⟨fun n => if n.id ∈ get_ancestor_ids db1 pp then
            { n with subtree_doc_count := n.subtree_doc_count + direct }
            else n, by simp [hc, update_subtree_counts], ?_⟩
          intro n
          by_cases hin : n.id ∈ get_ancestor_ids db1 pp <;> simp [hin, keyView]
        · exact ⟨id, by simp [hc], fun n => rfl⟩
  obtain ⟨G2, hG2nodes, hG2view⟩ := hG2
  -- the session-refreshed returned row
  have hnodemem : node ∈ db.nodes := List.mem_of_find?_eq_some hn
  have hcomp : (normalize_positions db3 n2.parent_id).nodes
      = db.nodes.map (fun m =>
          posAssign (fetch_siblings db3 n2.parent_id false)
            ((fun m2 => if m2.id = n1.id then n2 else m2)
              (G2 ((fun m0 => if m0.id = node.id then n1 else m0) m)))) := by
    rw [normalize_nodes]
    have h3 : db3.nodes = db2.nodes.map
        (fun m2 => if m2.id = n1.id then n2 else m2) := rfl
    rw [h3, hG2nodes]
    have h1 : db1.nodes = db.nodes.map
        (fun m0 => if m0.id = node.id then n1 else m0) := rfl
    rw [h1]
    rw [List.map_map, List.map_map, List.map_map]
    rfl
  have hg2id : ∀ x : Node, (G2 x).id = x.id := by
    intro x
    have := congrArg Prod.fst (hG2view x)
    simpa [keyView] using this
  have hrefresh : (nodeById (normalize_positions db3 n2.parent_id) n1.id).getD n2
      = posAssign (fetch_siblings db3 n2.parent_id false) n2 := by
    have hFid : ∀ m : Node,
        ((fun m =>
          posAssign (fetch_siblings db3 n2.parent_id false)
            ((fun m2 => if m2.id = n1.id then n2 else m2)
              (G2 ((fun m0 => if m0.id = node.id then n1 else m0) m)))) m).id
          = m.id := by
      intro m
      show (posAssign (fetch_siblings db3 n2.parent_id false)
        (if (G2 (if m.id = node.id then n1 else m)).id = n1.id then n2
          else G2 (if m.id = node.id then n1 else m))).id = m.id
      rw [posAssign_id]
      by_cases h0 : m.id = node.id
      · rw [if_pos h0, if_pos (hg2id n1), h0]
      · rw [if_neg h0]
        by_cases h2 : (G2 m).id = n1.id
        · exfalso
          apply h0
          exact (hg2id m).symm.trans h2
        · rw [if_neg h2]
          exact hg2id m
    have hfind := find?_id_map db.nodes _ hFid hnodup node hnodemem
    have hval : (fun m =>
          posAssign (fetch_siblings db3 n2.parent_id false)
            ((fun m2 => if m2.id = n1.id then n2 else m2)
              (G2 ((fun m0 => if m0.id = node.id then n1 else m0) m)))) node
        = posAssign (fetch_siblings db3 n2.parent_id false) n2 := by
      show posAssign (fetch_siblings db3 n2.parent_id false)
          (if (G2 (if node.id = node.id then n1 else node)).id = n1.id then n2
            else G2 (if node.id = node.id then n1 else node)) = _
      rw [if_pos rfl, if_pos (hg2id n1)]
    have hlook : nodeById (normalize_positions db3 n2.parent_id) node.id
        = some (posAssign (fetch_siblings db3 n2.parent_id false) n2) := by
      show ((normalize_positions db3 n2.parent_id).nodes).find?
        (fun n => n.id == node.id) = _
      rw [hcomp, hfind]
      exact congrArg some hval
    have hid1 : n1.id = node.id := rfl
    rw [hid1, hlook]
    rfl
  rw [hrefresh]
  refine ⟨by rw [posAssign_path], ?_⟩
  rw [posAssign_count]
  show (if subtreeIds ≠ [] then countBindingsFor db2 subtreeIds else 0)
      = liveSubtreeOutputCount (normalize_positions db3 n2.parent_id) node.path
  have hb2 : db2.bindings = db.bindings := by
    rw [hdb2]
    cases truthyPath n1.parent_path with
    | none => rfl
    | some pp =>
        by_cases hc : direct ≠ 0 <;> simp [hc, update_subtree_counts, hdb1,
          setNode]
  have hd2 : db2.documents = db.documents := by
    rw [hdb2]
    cases truthyPath n1.parent_path with
    | none => rfl
    | some pp =>
        by_cases hc : direct ≠ 0 <;> simp [hc, update_subtree_counts, hdb1,
          setNode]
  have hrow1 : ∀ m ∈ db1.nodes, m.id = node.id → keyView m = keyView n1 := by
    intro m hm hid
    rw [hdb1] at hm
    obtain ⟨m0, _, rfl⟩ := List.mem_map.mp hm
    by_cases h0 : m0.id = node.id
    · simp [setNode, h0]
    · exfalso
      apply h0
      simp only [setNode, if_neg h0] at hid
      exact hid
  have hrow2 : ∀ m ∈ db2.nodes, m.id = node.id → keyView m = keyView n1 := by
    intro m hm hid
    rw [hG2nodes] at hm
    obtain ⟨m1, hm1, rfl⟩ := List.mem_map.mp hm
    have hview := hG2view m1
    have hid1 : m1.id = node.id := by
      have hfst := congrArg Prod.fst hview
      simp only [keyView] at hfst
      rw [← hfst]
      exact hid
    exact hview.trans (hrow1 m1 hm1 hid1)
  have hview3 : db3.nodes.map keyView = db2.nodes.map keyView := by
    rw [hdb3]
    show (db2.nodes.map fun m => if m.id = n1.id then n2 else m).map keyView = _
    rw [List.map_map]
    apply List.map_congr_left
    intro m hm
    by_cases hid : m.id = n1.id
    · have : keyView m = keyView n1 := hrow2 m hm (by simpa [hn1] using hid)
      simp only [Function.comp_apply, if_pos hid]
      rw [this]
      simp [keyView, hn2, hn1]
    · simp [Function.comp_apply, hid]
  have hviewFinal : (normalize_positions db3 n2.parent_id).nodes.map keyView
      = db2.nodes.map keyView := (keyView_normalize db3 n2.parent_id).trans hview3
  -- assemble
  have hids : (fetch_subtree (normalize_positions db3 n2.parent_id) node.path
      false).map (·.id) = subtreeIds := by
    rw [hsub]
    have : n1.path = node.path := rfl
    rw [this]
    exact fetch_subtree_ids_congr _ db2 node.path false hviewFinal
  have hbFinal : (normalize_positions db3 n2.parent_id).bindings = db2.bindings := by
    rw [normalize_bindings, hdb3]
    rfl
  have hdFinal : (normalize_positions db3 n2.parent_id).documents = db2.documents := by
    rw [hdb3]
    rfl
  have hcount : liveSubtreeOutputCount (normalize_positions db3 n2.parent_id)
      node.path = countBindingsFor db2 subtreeIds := by
    unfold liveSubtreeOutputCount
    rw [hids]
    exact countBindingsFor_congr _ db2 hbFinal hdFinal subtreeIds
  rw [hcount]
  show (if subtreeIds ≠ [] then countBindingsFor db2 subtreeIds else 0)
      = countBindingsFor db2 subtreeIds
  by_cases hne : subtreeIds ≠ []
  · rw [if_pos hne]
  · rw [if_neg hne]
    simp at hne
    rw [hne, countBindingsFor_nil]

/-- C1 counterexample: binding a document directly to a root node leaves
its own `subtree_doc_count` at 1, while the claim requires the bound
node's own counter to stay unchanged at 0. -/
theorem bind_own_counter_changes_counterexample :
    ((bind c1db 1 1 "u").toOption.map fun p =>
        (nodeById p.1 1).map (·.subtree_doc_count)) = some (some 1) ∧
      (some (some (1 : Int)) : Option (Option Int)) ≠ some (some 0) := by
  constructor
  · rfl
  · decide

/-- C3 counterexample: restoring the node recomputes its own counter to
1 (its own direct binding is counted), while the live descendants alone
hold 0 bindings — the value the claim requires. -/
theorem restore_counts_own_binding_counterexample :
    ((restore_node c3db 1 "u").toOption.map fun p =>
        (p.2.subtree_doc_count, liveDescendantOutputCount p.1 p.2.path))
      = some (1, 0) ∧ (1 : Int) ≠ 0 := by
  constructor
  · rfl
  · decide

/-- C5 counterexample: every operation of `c5Ops` commits, yet in the
final state the active siblings of node 4 carry positions 0, 1, 0 — not
a contiguous 0..n-1 run. -/
theorem committed_ops_can_break_density_counterexample :
    (runOps initialDB c5Ops).isSome = true ∧
      ((runOps initialDB c5Ops).map fun dbF => decide (denseFor dbF (some 4)))
        = some false := by
  constructor
  · rfl
  · rfl

theorem bind_idempotent_on_active_binding_witness :
    bind w9db 1 1 "u" = .ok (w9db, c3rel) :=
  bind_idempotent_on_active_binding w9db 1 1 "u" c1node c1doc c3rel
    (by decide) rfl rfl rfl rfl rfl rfl

theorem restore_noop_on_active_witness :
    restore_node w9db 1 "u" = .ok (w9db, c1node) :=
  (restore_noop_on_active w9db 1 "u" c1node (by decide) rfl).1 rfl

theorem update_rejects_self_or_subtree_parent_witness :
    update_node w8db 1 w8data "u" = .error (.invalidOperation msgOwnSubtree) :=
  (update_rejects_self_or_subtree_parent w8db 1 w8data "u" w8root w8child
      ["a", "b"] (by decide) rfl rfl (by intro s hs; cases hs) rfl rfl
      rfl).2.1 (by decide) (by decide)

theorem purge_requires_soft_delete_and_erases_subtree_witness :
    ∃ db', purge_node c3db 1 "u" = .ok db' ∧
      (∀ m ∈ db'.nodes, ¬ inSubtree m.path c3node.path) ∧
      (∀ b ∈ db'.bindings, ∀ m ∈ c3db.nodes,
        inSubtree m.path c3node.path → b.node_id ≠ m.id) ∧
      denseFor db' c3node.parent_id :=
  (purge_requires_soft_delete_and_erases_subtree c3db 1 "u" c3node
      (by decide) rfl (by decide)).2 (by decide)

theorem bind_increments_ancestors_and_self_witness :
    ∃ db' rel, bind c1db 1 1 "u" = .ok (db', rel) ∧
      ∀ m ∈ c1db.nodes, ∃ m', nodeById db' m.id = some m' ∧
        m'.subtree_doc_count
          = m.subtree_doc_count + (if m.path <+: c1node.path then 1 else 0) ∧
        m'.path = m.path ∧ m'.parent_id = m.parent_id ∧
        m'.position = m.position ∧ m'.deleted_at = m.deleted_at :=
  bind_increments_ancestors_and_self c1db 1 1 "u" c1node c1doc
    (by decide) rfl rfl rfl rfl (by decide) (Or.inl rfl)

theorem restore_recomputes_count_including_self_witness :
    (restore_apply c3db c3node "u").2.path = c3node.path ∧
      (restore_apply c3db c3node "u").2.subtree_doc_count
        = liveSubtreeOutputCount (restore_apply c3db c3node "u").1
            c3node.path :=
  restore_recomputes_count_including_self c3db 1 "u" c3node
    (restore_apply c3db c3node "u").1 (restore_apply c3db c3node "u").2
    (by decide) (by decide) rfl (by decide) rfl

/-- Find-by-own-id returns the element itself on a table with distinct
ids. -/
theorem find?_id_self (l : List Node) (h : (l.map (·.id)).Nodup)
    (i : Nat) (hi : i < l.length) :
    l.find? (fun s => s.id == l[i].id) = some l[i] := by
  induction l generalizing i with
  | nil => simp at hi
  | cons a t ih =>
      have h' : (a.id :: t.map (·.id)).Nodup := by
        rw [← List.map_cons]
        exact h
      have hnd := List.nodup_cons.mp h'
      cases i with
      | zero => simp [List.find?]
      | succ j =>
          have hj : j < t.length := by simpa using hi
          have hane : a.id ≠ t[j].id := by
            intro he
            exact hnd.1 (he ▸ List.mem_map.mpr ⟨t[j], t.getElem_mem hj, rfl⟩)
          simp only [List.getElem_cons_succ, List.find?]
          rw [show (a.id == t[j].id) = false by simp [hane]]
          exact ih hnd.2 j hj

/-- The looked-up id list of the reorder payload: every provided id is a
sibling, so the lookups succeed and return exactly the provided ids. -/
theorem map_id_filterMap_find? (sibs : List Node) (ids : List Nat)
    (hsub : ∀ i ∈ ids, ∃ n ∈ sibs, n.id = i) :
    ((ids.filterMap fun i => sibs.find? fun n => n.id == i).map (·.id)) = ids := by
  induction ids with
  | nil => rfl
  | cons i t ih =>
      obtain ⟨n, hn, hni⟩ := hsub i (List.mem_cons_self i t)
      have hsome : (sibs.find? fun m => m.id == i).isSome := by
        rw [List.find?_isSome]
        exact ⟨n, hn, by simp [hni]⟩
      cases hfind : sibs.find? fun m => m.id == i with
      | none => rw [hfind] at hsome; simp at hsome
      | some s =>
          have hsid : s.id = i := by
            have := List.find?_some hfind
            simpa using this
          rw [List.filterMap_cons]
          simp only [hfind, List.map_cons, hsid]
          rw [ih (fun j hj => hsub j (List.mem_cons_of_mem i hj))]

/-- Membership in the ordered sibling listing is membership in the
table. -/
theorem mem_of_mem_fetch_siblings {db : DB} {pid : Option Nat} {b : Bool}
    {n : Node} (hn : n ∈ fetch_siblings db pid b) : n ∈ db.nodes := by
  have hperm := sortByKey_perm posIdLe
    (db.nodes.filter fun m => parentMatches m pid && (b || m.isActive))
  have := hperm.mem_iff.mp hn
  exact (List.mem_filter.mp this).1

theorem fetch_siblings_nodup_ids (db : DB) (pid : Option Nat) (b : Bool)
    (h : NodupIds db) :
    ((fetch_siblings db pid b).map (·.id)).Nodup := by
  have hperm := (sortByKey_perm posIdLe
    (db.nodes.filter fun m => parentMatches m pid && (b || m.isActive))).map (·.id)
  refine hperm.nodup_iff.mpr ?_
  unfold NodupIds at h
  exact ((List.filter_sublist db.nodes).map (·.id)).nodup h

theorem mem_reorderBase {db : DB} {data : NodeReorderData} {x : Node}
    (hx : x ∈ reorderBase db data) :
    x ∈ fetch_siblings db data.parent_id false := by
  rcases List.mem_append.mp hx with hl | hr
  · obtain ⟨i, _, hf⟩ := List.mem_filterMap.mp hl
    exact List.mem_of_find?_eq_some hf
  · exact (List.mem_filter.mp hr).1

theorem reorderBase_nodup_ids (db : DB) (data : NodeReorderData)
    (hnodup : NodupIds db) (hids : data.ordered_ids.Nodup)
    (hsub : ∀ i ∈ data.ordered_ids,
      ∃ n ∈ fetch_siblings db data.parent_id false, n.id = i) :
    ((reorderBase db data).map (·.id)).Nodup := by
  unfold reorderBase
  rw [List.map_append]
  rw [map_id_filterMap_find? _ _ hsub]
  rw [List.nodup_append]
  refine ⟨hids, ?_, ?_⟩
  · have hsibs := fetch_siblings_nodup_ids db data.parent_id false hnodup
    exact ((List.filter_sublist
      (fetch_siblings db data.parent_id false)).map (fun n : Node => n.id)).nodup
      hsibs
  · intro a ha hb
    obtain ⟨x, hx, hxid⟩ := List.mem_map.mp hb
    have hxf := (List.mem_filter.mp hx).2
    simp only [decide_not, Bool.not_eq_eq_eq_not, Bool.not_true,
      decide_eq_false_iff_not] at hxf
    exact hxf (hxid ▸ ha)

/-- C6 -/
theorem reorder_children_spec (db : DB) (data : NodeReorderData) (user : String)
    (hu : user ≠ "") (hnodup : NodupIds db)
    (hpar : ∀ pid, data.parent_id = some pid →
      ∃ p, nodeById db pid = some p ∧ p.deleted_at = none)
    (hids : data.ordered_ids.Nodup)
    (hsne : fetch_siblings db data.parent_id false ≠ [])
    (hsub : ∀ i ∈ data.ordered_ids,
      ∃ n ∈ fetch_siblings db data.parent_id false, n.id = i) :
    ∃ db' seq, reorder_children db data user = .ok (db', seq) ∧
      seq.length = (reorderBase db data).length ∧
      (∀ i, i < (reorderBase db data).length → i < seq.length →
        ∀ hi : i < (reorderBase db data).length, ∀ hj : i < seq.length,
        seq[i] = (if (reorderBase db data)[i].position = (i : Int)
          then (reorderBase db data)[i]
          else { (reorderBase db data)[i] with
                   position := (i : Int), updated_by := user }) ∧
        nodeById db' (reorderBase db data)[i].id = some seq[i]) ∧
      (∀ m ∈ db.nodes, (∀ x ∈ reorderBase db data, x.id ≠ m.id) →
        nodeById db' m.id = some m) := by
  classical
  have hall : (data.ordered_ids.all fun i =>
      (fetch_siblings db data.parent_id false).any fun n => n.id == i) = true := by
    rw [List.all_eq_true]
    intro i hi
    rw [List.any_eq_true]
    obtain ⟨n, hn, hni⟩ := hsub i hi
    exact ⟨n, hn, by simp [hni]⟩
  have heq : reorder_children db data user
      = .ok (reorder_apply db data user) := by
    unfold reorder_children
    rcases hp : data.parent_id with _ | pid
    · rw [hp] at hsne hall
      simp [hu, hp, hsne, hids, hall, throw_eq_error, error_bind, ok_bind,
        map_error, map_ok, pure_eq_ok, reorder_apply]
    · obtain ⟨p, hpr, hpact⟩ := hpar pid hp
      have hpact' : p.deleted_at.isSome = false := by rw [hpact]; rfl
      rw [hp] at hsne hall
      simp [hu, hp, hpr, hpact', hsne, hids, hall, throw_eq_error, error_bind,
        ok_bind, map_error, map_ok, pure_eq_ok, reorder_apply]
  have happly : reorder_apply db data user
      = ({ db with nodes := db.nodes.map (reorderF db data user) },
          reorderSeq db data user) := rfl
  have hFid : ∀ m, (reorderF db data user m).id = m.id := by
    intro m
    unfold reorderF
    cases hf : (reorderSeq db data user).find? fun s => s.id == m.id with
    | none => simp only [hf]
    | some s =>
        simp only [hf]
        have := List.find?_some hf
        simpa using this
  have hseq2len : (reorderSeq db data user).length
      = (reorderBase db data).length := by
    unfold reorderSeq
    simp
  have hseq2ids : (reorderSeq db data user).map (·.id)
      = (reorderBase db data).map (·.id) := by
    unfold reorderSeq
    rw [List.map_map]
    have h1 : List.map ((fun x : Node => x.id) ∘ fun p : Nat × Node =>
        if p.2.position ≠ (p.1 : Int) then
          { p.2 with position := (p.1 : Int), updated_by := user }
        else p.2) (reorderBase db data).enum
        = List.map (fun p : Nat × Node => p.2.id) (reorderBase db data).enum := by
      apply List.map_congr_left
      intro p _
      by_cases hc : p.2.position ≠ (p.1 : Int)
      · simp [hc]
      · simp only [Function.comp_apply, if_neg hc]
    rw [h1]
    calc List.map (fun p : Nat × Node => p.2.id) (reorderBase db data).enum
        = List.map (fun n : Node => n.id) ((reorderBase db data).enum.map Prod.snd) := by
          rw [List.map_map]
          rfl
      _ = List.map (fun n : Node => n.id) (reorderBase db data) := by
          rw [List.enum_map_snd]
  have hbasend : ((reorderBase db data).map (·.id)).Nodup :=
    reorderBase_nodup_ids db data hnodup hids hsub
  have hseq2nd : ((reorderSeq db data user).map (·.id)).Nodup :=
    hseq2ids ▸ hbasend
  have hgetseq : ∀ i, ∀ hbi : i < (reorderBase db data).length,
      ∀ hsi : i < (reorderSeq db data user).length,
      (reorderSeq db data user)[i]
        = (if (reorderBase db data)[i].position = (i : Int)
          then (reorderBase db data)[i]
          else { (reorderBase db data)[i] with
                   position := (i : Int), updated_by := user }) := by
    intro i hbi hsi
    have hsi' : i < ((reorderBase db data).enum.map (fun p : Nat × Node =>
        if p.2.position ≠ (p.1 : Int) then
          { p.2 with position := (p.1 : Int), updated_by := user }
        else p.2)).length := by
      simpa [reorderSeq] using hsi
    show ((reorderBase db data).enum.map _)[i] = _
    rw [List.getElem_map]
    rw [List.getElem_enum]
    by_cases hc : (reorderBase db data)[i].position = (i : Int)
    · rw [if_pos hc]
      simp [hc]
    · rw [if_neg hc]
      simp [hc]
  have hgetid : ∀ i, ∀ hbi : i < (reorderBase db data).length,
      ∀ hsi : i < (reorderSeq db data user).length,
      (reorderSeq db data user)[i].id = (reorderBase db data)[i].id := by
    intro i hbi hsi
    rw [hgetseq i hbi hsi]
    by_cases hc : (reorderBase db data)[i].position = (i : Int) <;> simp [hc]
  refine ⟨_, _, by rw [heq, happly], ?_, ?_, ?_⟩
  · exact hseq2len
  · intro i _ _ hi hj
    have hj2 : i < (reorderSeq db data user).length := hj
    refine ⟨hgetseq i hi hj2, ?_⟩
    have hmem : (reorderBase db data)[i] ∈ db.nodes :=
      mem_of_mem_fetch_siblings
        (mem_reorderBase ((reorderBase db data).getElem_mem hi))
    have hfind := find?_id_map db.nodes (reorderF db data user) hFid hnodup
      (reorderBase db data)[i] hmem
    have hFval : reorderF db data user (reorderBase db data)[i]
        = (reorderSeq db data user)[i] := by
      unfold reorderF
      have hpred : (fun s : Node => s.id == (reorderBase db data)[i].id)
          = (fun s : Node => s.id == (reorderSeq db data user)[i].id) := by
        rw [hgetid i hi hj2]
      rw [hpred]
      rw [find?_id_self (reorderSeq db data user) hseq2nd i hj2]
    show (db.nodes.map (reorderF db data user)).find?
      (fun n => n.id == (reorderBase db data)[i].id) = some _
    rw [hfind, hFval]
  · intro m hm hnot
    have hnone : ((reorderSeq db data user).find? fun s => s.id == m.id)
        = none := by
      rw [List.find?_eq_none]
      intro x hx
      have hxid : x.id ∈ (reorderBase db data).map (·.id) := by
        rw [← hseq2ids]
        exact List.mem_map.mpr ⟨x, hx, rfl⟩
      obtain ⟨y, hy, hyid⟩ := List.mem_map.mp hxid
      simp only [beq_iff_eq]
      rw [← hyid]
      exact hnot y hy
    have hfind := find?_id_map db.nodes (reorderF db data user) hFid hnodup m hm
    have hFval : reorderF db data user m = m := by
      unfold reorderF
      rw [hnone]
    show (db.nodes.map (reorderF db data user)).find?
      (fun n => n.id == m.id) = some m
    rw [hfind, hFval]

theorem reorder_children_spec_witness :
    ∃ db' seq, reorder_children w6db w6data "u" = .ok (db', seq) ∧
      seq.length = (reorderBase w6db w6data).length ∧
      (∀ i, i < (reorderBase w6db w6data).length → i < seq.length →
        ∀ hi : i < (reorderBase w6db w6data).length, ∀ hj : i < seq.length,
        seq[i] = (if (reorderBase w6db w6data)[i].position = (i : Int)
          then (reorderBase w6db w6data)[i]
          else { (reorderBase w6db w6data)[i] with
                   position := (i : Int), updated_by := "u" }) ∧
        nodeById db' (reorderBase w6db w6data)[i].id = some seq[i]) ∧
      (∀ m ∈ w6db.nodes, (∀ x ∈ reorderBase w6db w6data, x.id ≠ m.id) →
        nodeById db' m.id = some m) :=
  reorder_children_spec w6db w6data "u" (by decide) (by decide)
    (by intro pid h; cases h) (by decide) (by decide) (by decide)

/-- Lookup of a present row on a table with distinct keys. -/
theorem nodeById_self (db : DB) (hnodup : NodupIds db) (m : Node)
    (hm : m ∈ db.nodes) : nodeById db m.id = some m := by
  have h := find?_id_map db.nodes id (fun _ => rfl) hnodup m hm
  rw [List.map_id] at h
  exact h

theorem NodupIds_update (db : DB) (ids : List Nat) (d : Int)
    (hnodup : NodupIds db) : NodupIds (update_subtree_counts db ids d) := by
  unfold NodupIds at hnodup ⊢
  show (List.map (fun x : Node => x.id) (db.nodes.map (fun n : Node =>
    if n.id ∈ ids then { n with subtree_doc_count := n.subtree_doc_count + d }
    else n))).Nodup
  rw [List.map_map]
  have h1 : ∀ n ∈ db.nodes,
      ((fun x : Node => x.id) ∘ fun n : Node => if n.id ∈ ids then
        { n with subtree_doc_count := n.subtree_doc_count + d } else n) n
      = n.id := by
    intro n _
    by_cases hc : n.id ∈ ids <;> simp [hc]
  rw [List.map_congr_left h1]
  exact hnodup

/-- Row-level effect of a guarded counter update (`if ids: update`). -/
theorem update_counts_row_guard (db : DB) (ids : List Nat) (d : Int)
    (hnodup : NodupIds db) (m : Node) (hm : m ∈ db.nodes) :
    nodeById (if ids ≠ [] then update_subtree_counts db ids d else db) m.id
      = some (if m.id ∈ ids then
          { m with subtree_doc_count := m.subtree_doc_count + d } else m) := by
  by_cases h : ids ≠ []
  · rw [if_pos h]
    exact update_counts_row db ids d hnodup m hm
  · rw [if_neg h]
    simp only [ne_eq, not_not] at h
    subst h
    rw [nodeById_self db hnodup m hm]
    simp

/-- Row-level counter formula of `_migrate_subtree_counts_on_move`: the
total live counted-binding count of the live subtree is subtracted on
the old parent chain and added on the new parent chain, by path
prefix. -/
theorem migrate_counts (db : DB) (q : Path) (opp npp : Option Path)
    (hnodup : NodupIds db) (m : Node) (hm : m ∈ db.nodes) :
    ∃ c : Int,
      nodeById (migrate_subtree_counts_on_move db q opp npp) m.id
        = some { m with subtree_doc_count := c } ∧
      c = m.subtree_doc_count
        - (if (∃ op, truthyPath opp = some op ∧ m.path <+: op) then
            liveSubtreeOutputCount db q else 0)
        + (if (∃ np, truthyPath npp = some np ∧ m.path <+: np) then
            liveSubtreeOutputCount db q else 0) := by
  classical
  have hmeta : ∀ x : Node, x = { x with subtree_doc_count := x.subtree_doc_count } := by
    intro x
    rfl
  unfold migrate_subtree_counts_on_move
  by_cases hempty : (fetch_subtree db q false).map (·.id) = []
  · rw [if_pos hempty]
    refine ⟨m.subtree_doc_count, by rw [nodeById_self db hnodup m hm], ?_⟩
    have hc0 : liveSubtreeOutputCount db q = 0 := by
      unfold liveSubtreeOutputCount
      rw [hempty, countBindingsFor_nil]
    rw [hc0]
    simp
  · rw [if_neg hempty]
    by_cases hzero : countBindingsFor db ((fetch_subtree db q false).map (·.id)) = 0
    · rw [if_pos hzero]
      refine ⟨m.subtree_doc_count, by rw [nodeById_self db hnodup m hm], ?_⟩
      have hc0 : liveSubtreeOutputCount db q = 0 := hzero
      rw [hc0]
      simp
    · rw [if_neg hzero]
      set c0 := countBindingsFor db ((fetch_subtree db q false).map (·.id)) with hc0
      set oldIds := (match truthyPath opp with
        | some pp => get_ancestor_ids db pp
        | none => []) with holdIds
      set newIds := (match truthyPath npp with
        | some pp => get_ancestor_ids db pp
        | none => []) with hnewIds
      have hstep1 := update_counts_row_guard db oldIds (-c0) hnodup m hm
      set r1 := (if m.id ∈ oldIds then
        { m with subtree_doc_count := m.subtree_doc_count + (-c0) } else m) with hr1
      have hr1id : r1.id = m.id := by
        rw [hr1]
        by_cases hc : m.id ∈ oldIds <;> simp [hc]
      set db1 := (if oldIds ≠ [] then update_subtree_counts db oldIds (-c0) else db)
        with hdb1
      have hnodup1 : NodupIds db1 := by
        rw [hdb1]
        by_cases h : oldIds ≠ []
        · rw [if_pos h]
          exact NodupIds_update db oldIds (-c0) hnodup
        · rw [if_neg h]
          exact hnodup
      have hr1mem : r1 ∈ db1.nodes := List.mem_of_find?_eq_some hstep1
      have hstep2 := update_counts_row_guard db1 newIds c0 hnodup1 r1 hr1mem
      rw [hr1id] at hstep2
      have hmemold : m.id ∈ oldIds ↔ (∃ op, truthyPath opp = some op ∧ m.path <+: op) := by
        rw [holdIds]
        cases htp : truthyPath opp with
        | none => simp
        | some op =>
            simp only []
            rw [mem_get_ancestor_ids db hnodup m hm op]
            constructor
            · intro h
              exact ⟨op, rfl, h⟩
            · rintro ⟨opx, hopx, h⟩
              cases hopx
              exact h
      have hmemnew : m.id ∈ newIds ↔ (∃ np, truthyPath npp = some np ∧ m.path <+: np) := by
        rw [hnewIds]
        cases htp : truthyPath npp with
        | none => simp
        | some np =>
            simp only []
            rw [mem_get_ancestor_ids db hnodup m hm np]
            constructor
            · intro h
              exact ⟨np, rfl, h⟩
            · rintro ⟨npx, hnpx, h⟩
              cases hnpx
              exact h
      have hlive : liveSubtreeOutputCount db q = c0 := rfl
      by_cases hn : m.id ∈ newIds <;> by_cases ho : m.id ∈ oldIds
      · refine ⟨m.subtree_doc_count + -c0 + c0, ?_, ?_⟩
        · rw [hstep2, if_pos hn, hr1, if_pos ho]
        · rw [hlive, if_pos (hmemold.mp ho), if_pos (hmemnew.mp hn)]
          ring
      · refine ⟨m.subtree_doc_count + c0, ?_, ?_⟩
        · rw [hstep2, if_pos hn, hr1, if_neg ho]
        · rw [hlive, if_neg (fun hx => ho (hmemold.mpr hx)), if_pos (hmemnew.mp hn)]
          ring
      · refine ⟨m.subtree_doc_count + -c0, ?_, ?_⟩
        · rw [hstep2, if_neg hn, hr1, if_pos ho]
        · rw [hlive, if_pos (hmemold.mp ho), if_neg (fun hx => hn (hmemnew.mpr hx))]
          ring
      · refine ⟨m.subtree_doc_count, ?_, ?_⟩
        · rw [hstep2, if_neg hn, hr1, if_neg ho]
        · rw [hlive, if_neg (fun hx => ho (hmemold.mpr hx)),
            if_neg (fun hx => hn (hmemnew.mpr hx))]
          ring

theorem upd_n1_id (node : Node) (data : NodeUpdateData) :
    (upd_n1 node data).id = node.id := rfl

theorem upd_n1_path (node : Node) (data : NodeUpdateData) :
    (upd_n1 node data).path = node.path := rfl

theorem updMoveNode_id (db : DB) (node : Node) (data : NodeUpdateData)
    (tp : Option Path) (ti : Option Nat) :
    (updMoveNode db node data tp ti).id = node.id := rfl

theorem updMoveNode_path (db : DB) (node : Node) (data : NodeUpdateData)
    (tp : Option Path) (ti : Option Nat) :
    (updMoveNode db node data tp ti).path = node.path := rfl

theorem updMoveNode_count (db : DB) (node : Node) (data : NodeUpdateData)
    (tp : Option Path) (ti : Option Nat) :
    (updMoveNode db node data tp ti).subtree_doc_count
      = node.subtree_doc_count := rfl

theorem updMoveNode_deleted_at (db : DB) (node : Node) (data : NodeUpdateData)
    (tp : Option Path) (ti : Option Nat) :
    (updMoveNode db node data tp ti).deleted_at = node.deleted_at := rfl

/-- Two attribute flushes on the same primary-key row collapse to the
last one. -/
theorem setNode_setNode (db : DB) (id : Nat) (n n2 : Node) (h : n.id = id) :
    setNode (setNode db id n) id n2 = setNode db id n2 := by
  unfold setNode
  congr 1
  rw [List.map_map]
  apply List.map_congr_left
  intro m _
  by_cases hm : m.id = id
  · simp [Function.comp, hm, h]
  · simp [Function.comp, hm]

theorem NodupIds_setNode (db : DB) (id : Nat) (n : Node) (h : n.id = id)
    (hnodup : NodupIds db) : NodupIds (setNode db id n) := by
  unfold NodupIds at hnodup ⊢
  show ((db.nodes.map fun m => if m.id = id then n else m).map (·.id)).Nodup
  rw [List.map_map]
  have hc : ∀ m ∈ db.nodes,
      ((fun x : Node => x.id) ∘ fun m : Node => if m.id = id then n else m) m
        = m.id := by
    intro m _
    by_cases hm : m.id = id <;> simp [hm, h]
  rw [List.map_congr_left hc]
  exact hnodup

theorem NodupIds_update_if (db : DB) (c : Prop) [Decidable c] (ids : List Nat)
    (d : Int) (h : NodupIds db) :
    NodupIds (if c then update_subtree_counts db ids d else db) := by
  by_cases hc : c
  · rw [if_pos hc]
    exact NodupIds_update db ids d h
  · rw [if_neg hc]
    exact h

theorem NodupIds_migrate (db : DB) (q : Path) (opp npp : Option Path)
    (h : NodupIds db) :
    NodupIds (migrate_subtree_counts_on_move db q opp npp) := by
  unfold migrate_subtree_counts_on_move
  by_cases h1 : (fetch_subtree db q false).map (·.id) = []
  · rw [if_pos h1]
    exact h
  · rw [if_neg h1]
    by_cases h2 : countBindingsFor db ((fetch_subtree db q false).map (·.id)) = 0
    · rw [if_pos h2]
      exact h
    · rw [if_neg h2]
      exact NodupIds_update_if _ _ _ _ (NodupIds_update_if _ _ _ _ h)

theorem map_cntView_congr (l : List Node) (F : Node → Node)
    (h : ∀ m ∈ l, cntView (F m) = cntView m) :
    (l.map F).map cntView = l.map cntView := by
  rw [List.map_map]
  apply List.map_congr_left
  intro m hm
  exact h m hm

theorem cnt_stamp_updated_by (l : List Node) (i : Nat) (u : String) :
    ((l.map fun m => if m.id = i then { m with updated_by := u } else m).map
      cntView) = l.map cntView := by
  apply map_cntView_congr
  intro m _
  by_cases hm : m.id = i
  · simp [cntView, hm]
  · simp [cntView, hm]

theorem cnt_normalize (db : DB) (pid : Option Nat) :
    (normalize_positions db pid).nodes.map cntView = db.nodes.map cntView := by
  rw [normalize_nodes]
  apply map_cntView_congr
  intro m _
  unfold cntView
  rw [posAssign_id, posAssign_count]

/-- The descendant rewrite changes no row's id or cached counter. -/
theorem cnt_rewrite_descendants (db : DB) (node1 : Node) (oldPath : Path)
    (user : String) (hnodup : NodupIds db) :
    (rewrite_descendants db node1 oldPath user).nodes.map cntView
      = db.nodes.map cntView := by
  unfold rewrite_descendants
  apply map_cntView_congr
  intro m hm
  by_cases hid : m.id = node1.id
  · simp only [if_pos hid]
    rfl
  · simp only [if_neg hid]
    cases hfind : ((rewrittenDescs db node1 oldPath user).map
        (relinkRow (node1 :: rewrittenDescs db node1 oldPath user))).find?
        (fun d => d.id == m.id) with
    | none => rfl
    | some d =>
        have hdid : d.id = m.id := by
          have := List.find?_some hfind
          simpa using this
        have hdmem := List.mem_of_find?_eq_some hfind
        obtain ⟨d1, hd1mem, hd1eq⟩ := List.mem_map.mp hdmem
        unfold rewrittenDescs at hd1mem
        obtain ⟨r, hrmem, hreq⟩ := List.mem_map.mp hd1mem
        have hrdb : r ∈ db.nodes := by
          unfold fetch_descendants at hrmem
          exact (List.mem_filter.mp hrmem).1
        have h1 : cntView d = cntView d1 := by
          rw [← hd1eq]
          rfl
        have h2 : cntView d1 = cntView r := by
          rw [← hreq]
          unfold rewriteRow
          by_cases hs : strictUnder r.path oldPath
          · simp only [if_pos hs]
            rfl
          · simp only [if_neg hs]
        have hrid : r.id = m.id := by
          have : d1.id = r.id := congrArg Prod.fst h2
          have h3 : d.id = d1.id := congrArg Prod.fst h1
          rw [← hdid, h3, this]
        have hrm : r = m := eq_of_mem_of_id_eq hnodup hrdb hm hrid
        rw [h1, h2, hrm]

/-- Row transport along an equality of `(id, counter)` views. -/
theorem find?_of_map_cntView :
    ∀ (l2 l : List Node), l2.map cntView = l.map cntView →
      ∀ m : Node, m ∈ l → (l.map (fun n : Node => n.id)).Nodup →
      ∃ r, l2.find? (fun n => n.id == m.id) = some r ∧
        r.subtree_doc_count = m.subtree_doc_count
  | [], [], _, m, hm, _ => absurd hm (List.not_mem_nil m)
  | [], _ :: _, h, _, _, _ => by simp [cntView] at h
  | _ :: _, [], h, _, _, _ => by simp [cntView] at h
  | a2 :: t2, a :: t, h, m, hm, hnd => by
      simp only [List.map_cons, List.cons.injEq] at h
      have hid : a2.id = a.id := congrArg Prod.fst h.1
      have hcnt : a2.subtree_doc_count = a.subtree_doc_count :=
        congrArg Prod.snd h.1
      have hnd0 : (a.id :: t.map (fun n : Node => n.id)).Nodup := by
        rw [← List.map_cons]
        exact hnd
      have hnd' := List.nodup_cons.mp hnd0
      rcases List.mem_cons.mp hm with rfl | hmt
      · refine ⟨a2, ?_, hcnt⟩
        simp [List.find?, hid]
      · have hane : a.id ≠ m.id := by
          intro he
          exact hnd'.1 (he ▸ List.mem_map.mpr ⟨m, hmt, rfl⟩)
        obtain ⟨r, hr, hrc⟩ := find?_of_map_cntView t2 t h.2 m hmt hnd'.2
        refine ⟨r, ?_, hrc⟩
        simp only [List.find?]
        rw [show (a2.id == m.id) = false by simp [hid, hane]]
        exact hr

theorem truthyPath_some {pp : Path} (h : pp ≠ []) :
    truthyPath (some pp) = some pp := by
  cases pp with
  | nil => exact absurd rfl h
  | cons a t => rfl

/-- Stages 1-4 of `update_node` on a cross-parent move: the three
attribute flushes collapse onto the single primary-key row, followed by
the counter migration keyed on the still-unchanged old path. -/
theorem upd_stage4_move (db : DB) (node : Node) (data : NodeUpdateData)
    (tgtPP : Option Path) (tgtPid : Option Nat)
    (hset : data.parent_path_set = true) (hmove : tgtPid ≠ node.parent_id) :
    upd_stage4 db node data tgtPP tgtPid
      = (migrate_subtree_counts_on_move
          (setNode db node.id (updMoveNode db node data tgtPP tgtPid))
          node.path node.parent_path tgtPP,
         updMoveNode db node data tgtPP tgtPid) := by
  unfold upd_stage4 updMoveNode
  simp only [if_pos hset, if_pos hmove, upd_n1_path]
  rw [setNode_setNode db node.id (upd_n1 node data) _ (upd_n1_id node data)]
  have h2 : ({ id := (upd_n1 node data).id, name := (upd_n1 node data).name,
               slug := (upd_n1 node data).slug, type := (upd_n1 node data).type,
               parent_id := tgtPid, parent_path := tgtPP, path := node.path,
               position := (upd_n1 node data).position,
               subtree_doc_count := (upd_n1 node data).subtree_doc_count,
               deleted_at := (upd_n1 node data).deleted_at,
               created_by := (upd_n1 node data).created_by,
               updated_by := (upd_n1 node data).updated_by } : Node).id
      = node.id := rfl
  rw [setNode_setNode db node.id _ _ h2]

/-- Success shape of `update_node` with an explicit new parent: all
guards pass and the result is the mutation phase applied to the resolved
target parent. -/
theorem update_node_ok (db : DB) (nodeId : Nat) (data : NodeUpdateData)
    (user : String) (node p : Node) (pp : Path)
    (hu : user ≠ "") (hn : nodeById db nodeId = some node)
    (hact : node.deleted_at = none)
    (hslug : ∀ s, data.slug = some s → validSlug s)
    (hset : data.parent_path_set = true)
    (hpp : truthyPath data.parent_path = some pp)
    (hp : get_active_by_path db pp = some p)
    (hself : p.id ≠ node.id) (hsub : ¬ strictUnder p.path node.path)
    (hnm : ¬ has_active_name db (some p.path) (data.name.getD node.name)
      (some node.id))
    (hpc : ¬ has_active_path db (p.path ++ [data.slug.getD node.slug])
      (some node.id)) :
    update_node db nodeId data user
      = .ok (update_apply db node data user (some p.path) (some p.id)) := by
  unfold update_node
  cases hds : data.slug with
  | none =>
      rw [hds, Option.getD_none] at hpc
      simp [hu, hn, hact, hset, hpp, hp, hself, hsub, hnm, hpc, hds,
        throw_eq_error, error_bind, ok_bind, map_error, map_ok, pure_eq_ok]
  | some s =>
      rw [hds, Option.getD_some] at hpc
      simp [hu, hn, hact, hset, hpp, hp, hself, hsub, hnm, hpc, hds,
        hslug s hds, throw_eq_error, error_bind, ok_bind, map_error, map_ok,
        pure_eq_ok]

/-- C2: a cross-parent move counts the live counted bindings of the
moved live subtree once and migrates exactly that total: every row whose
path is on the old parent's ancestor chain loses it, every row whose
path is on the new parent's ancestor chain gains it, and every row
inside the moved subtree keeps its cached counter. -/
theorem move_migrates_external_ancestor_counts
    (db : DB) (nodeId : Nat) (data : NodeUpdateData) (user : String)
    (node p : Node) (pp : Path)
    (hnodup : NodupIds db)
    (hu : user ≠ "") (hn : nodeById db nodeId = some node)
    (hact : node.deleted_at = none)
    (hslug : ∀ s, data.slug = some s → validSlug s)
    (hset : data.parent_path_set = true)
    (hpp : truthyPath data.parent_path = some pp)
    (hp : get_active_by_path db pp = some p)
    (hself : p.id ≠ node.id)
    (hppne : p.path ≠ [])
    (hnew : ¬ node.path <+: p.path)
    (hold : ∀ op, truthyPath node.parent_path = some op → ¬ node.path <+: op)
    (hmove : (some p.id : Option Nat) ≠ node.parent_id)
    (hnm : ¬ has_active_name db (some p.path) (data.name.getD node.name)
      (some node.id))
    (hpc : ¬ has_active_path db (p.path ++ [data.slug.getD node.slug])
      (some node.id)) :
    ∃ res, update_node db nodeId data user = Except.ok res ∧
      ∀ m ∈ db.nodes, ∃ row, nodeById res.1 m.id = some row ∧
        row.subtree_doc_count = m.subtree_doc_count
          - (if (∃ op, truthyPath node.parent_path = some op ∧ m.path <+: op)
              then liveSubtreeOutputCount db node.path else 0)
          + (if m.path <+: p.path then liveSubtreeOutputCount db node.path
              else 0) ∧
        (node.path <+: m.path →
          row.subtree_doc_count = m.subtree_doc_count) := by
  classical
  have hsub : ¬ strictUnder p.path node.path := fun hs => hnew hs.1
  have hok := update_node_ok db nodeId data user node p pp hu hn hact hslug
    hset hpp hp hself hsub hnm hpc
  refine ⟨update_apply db node data user (some p.path) (some p.id), hok, ?_⟩
  have hnodemem : node ∈ db.nodes := List.mem_of_find?_eq_some hn
  have hstage := upd_stage4_move db node data (some p.path) (some p.id)
    hset hmove
  have hMid : (updMoveNode db node data (some p.path) (some p.id)).id
      = node.id := updMoveNode_id db node data (some p.path) (some p.id)
  have hnodup3 : NodupIds (setNode db node.id
      (updMoveNode db node data (some p.path) (some p.id))) :=
    NodupIds_setNode db node.id _ hMid hnodup
  have hkv3 : (setNode db node.id
      (updMoveNode db node data (some p.path) (some p.id))).nodes.map keyView
      = db.nodes.map keyView := by
    show (db.nodes.map _).map keyView = _
    rw [List.map_map]
    apply List.map_congr_left
    intro x hx
    by_cases hxid : x.id = node.id
    · have hxeq : x = node := eq_of_mem_of_id_eq hnodup hx hnodemem hxid
      subst hxeq
      simp [Function.comp, keyView, updMoveNode_id, updMoveNode_path,
        updMoveNode_deleted_at]
    · simp [Function.comp, hxid]
  have hL : liveSubtreeOutputCount (setNode db node.id
      (updMoveNode db node data (some p.path) (some p.id))) node.path
      = liveSubtreeOutputCount db node.path := by
    unfold liveSubtreeOutputCount
    rw [fetch_subtree_ids_congr _ db node.path false hkv3]
    exact countBindingsFor_congr _ db rfl rfl _
  have hnodupM : NodupIds (migrate_subtree_counts_on_move
      (setNode db node.id (updMoveNode db node data (some p.path) (some p.id)))
      node.path node.parent_path (some p.path)) :=
    NodupIds_migrate _ node.path node.parent_path (some p.path) hnodup3
  have hview : (update_apply db node data user (some p.path)
        (some p.id)).1.nodes.map cntView
      = (migrate_subtree_counts_on_move
          (setNode db node.id
            (updMoveNode db node data (some p.path) (some p.id)))
          node.path node.parent_path (some p.path)).nodes.map cntView := by
    unfold update_apply
    simp only [hstage]
    by_cases hbr : updNewPath node data (some p.path) ≠ node.path
    · rw [if_pos hbr, if_pos (And.intro hset hmove)]
      rw [cnt_normalize, cnt_normalize]
      rw [cnt_stamp_updated_by]
      exact cnt_rewrite_descendants _ _ node.path user hnodupM
    · rw [if_neg hbr, if_pos (And.intro hset hmove)]
      rw [cnt_normalize, cnt_normalize]
      rw [cnt_stamp_updated_by]
  intro m hm
  have hF3 : ∀ x : Node, ((fun y : Node => if y.id = node.id then
      updMoveNode db node data (some p.path) (some p.id) else y) x).id
      = x.id := by
    intro x
    by_cases hx : x.id = node.id <;> simp [hx, hMid]
  have hrow3 : nodeById (setNode db node.id
      (updMoveNode db node data (some p.path) (some p.id))) m.id
      = some (if m.id = node.id then
          updMoveNode db node data (some p.path) (some p.id) else m) := by
    show (db.nodes.map (fun y : Node => if y.id = node.id then
        updMoveNode db node data (some p.path) (some p.id) else y)).find?
        (fun n => n.id == m.id) = _
    exact find?_id_map db.nodes _ hF3 hnodup m hm
  have hm3mem := List.mem_of_find?_eq_some hrow3
  have hm3id : (if m.id = node.id then
      updMoveNode db node data (some p.path) (some p.id) else m).id = m.id :=
    hF3 m
  have hmnode : m.id = node.id → m = node := fun hx =>
    eq_of_mem_of_id_eq hnodup hm hnodemem hx
  have hm3path : (if m.id = node.id then
      updMoveNode db node data (some p.path) (some p.id) else m).path
      = m.path := by
    by_cases hx : m.id = node.id
    · rw [if_pos hx, updMoveNode_path, hmnode hx]
    · rw [if_neg hx]
  have hm3cnt : (if m.id = node.id then
      updMoveNode db node data (some p.path) (some p.id) else m).subtree_doc_count
      = m.subtree_doc_count := by
    by_cases hx : m.id = node.id
    · rw [if_pos hx, updMoveNode_count, hmnode hx]
    · rw [if_neg hx]
  obtain ⟨c, hrowM, hc⟩ := migrate_counts
    (setNode db node.id (updMoveNode db node data (some p.path) (some p.id)))
    node.path node.parent_path (some p.path) hnodup3 _ hm3mem
  rw [hm3id] at hrowM
  have hcondnew : (∃ np, truthyPath (some p.path) = some np ∧
      m.path <+: np) ↔ m.path <+: p.path := by
    rw [truthyPath_some hppne]
    constructor
    · rintro ⟨np, hnp, hq⟩
      injection hnp with he
      exact he ▸ hq
    · intro hq
      exact ⟨p.path, rfl, hq⟩
  simp only [hm3path, hm3cnt, hL, hcondnew] at hc
  have hrowMmem := List.mem_of_find?_eq_some hrowM
  obtain ⟨r, hrfind, hrcnt⟩ := find?_of_map_cntView
    (update_apply db node data user (some p.path) (some p.id)).1.nodes
    (migrate_subtree_counts_on_move
      (setNode db node.id (updMoveNode db node data (some p.path) (some p.id)))
      node.path node.parent_path (some p.path)).nodes
    hview _ hrowMmem hnodupM
  have hXid : ({ (if m.id = node.id then
      updMoveNode db node data (some p.path) (some p.id) else m) with
        subtree_doc_count := c } : Node).id = m.id := hm3id
  simp only [hXid] at hrfind
  refine ⟨r, hrfind, ?_, ?_⟩
  · rw [hrcnt]
    exact hc
  · intro hins
    rw [hrcnt]
    show c = _
    rw [hc]
    have h1 : ¬ (∃ op, truthyPath node.parent_path = some op ∧
        m.path <+: op) := by
      rintro ⟨op, hop, hpre⟩
      exact hold op hop (hins.trans hpre)
    have h2 : ¬ m.path <+: p.path := fun hpre => hnew (hins.trans hpre)
    rw [if_neg h1, if_neg h2]
    ring

theorem move_migrates_external_ancestor_counts_witness :
    ∃ res, update_node c2db 3 c2data "u" = Except.ok res ∧
      ∀ m ∈ c2db.nodes, ∃ row, nodeById res.1 m.id = some row ∧
        row.subtree_doc_count = m.subtree_doc_count
          - (if (∃ op, truthyPath c2intro.parent_path = some op ∧
                m.path <+: op)
              then liveSubtreeOutputCount c2db c2intro.path else 0)
          + (if m.path <+: c2guides.path
              then liveSubtreeOutputCount c2db c2intro.path else 0) ∧
        (c2intro.path <+: m.path →
          row.subtree_doc_count = m.subtree_doc_count) :=
  move_migrates_external_ancestor_counts c2db 3 c2data "u" c2intro c2guides
    ["guides"] (by decide) (by decide) (by decide) (by decide)
    (by intro s h; cases h) (by decide) (by decide) (by decide) (by decide)
    (by decide) (by decide)
    (by intro op h; injection h with h1; subst h1; decide)
    (by decide) (by decide) (by decide)

theorem updRelinkNode_id (node : Node) (data : NodeUpdateData)
    (tp : Option Path) (ti : Option Nat) :
    (updRelinkNode node data tp ti).id = node.id := rfl

theorem updRelinkNode_path (node : Node) (data : NodeUpdateData)
    (tp : Option Path) (ti : Option Nat) :
    (updRelinkNode node data tp ti).path = node.path := rfl

theorem updRelinkNode_deleted_at (node : Node) (data : NodeUpdateData)
    (tp : Option Path) (ti : Option Nat) :
    (updRelinkNode node data tp ti).deleted_at = node.deleted_at := rfl

theorem posAssign_parent_path (sibs : List Node) (n : Node) :
    (posAssign sibs n).parent_path = n.parent_path := by
  unfold posAssign
  cases idIndex (sibs.map (·.id)) n.id with
  | none => rfl
  | some i => by_cases h : n.position ≠ (i : Int) <;> simp [h]

theorem map_pview_congr (l : List Node) (F : Node → Node)
    (h : ∀ m ∈ l, pview (F m) = pview m) :
    (l.map F).map pview = l.map pview := by
  rw [List.map_map]
  apply List.map_congr_left
  intro m hm
  exact h m hm

theorem pview_stamp_updated_by (l : List Node) (i : Nat) (u : String) :
    ((l.map fun m => if m.id = i then { m with updated_by := u } else m).map
      pview) = l.map pview := by
  apply map_pview_congr
  intro m _
  by_cases hm : m.id = i
  · simp [pview, hm]
  · simp [pview, hm]

theorem pview_normalize (db : DB) (pid : Option Nat) :
    (normalize_positions db pid).nodes.map pview = db.nodes.map pview := by
  rw [normalize_nodes]
  apply map_pview_congr
  intro m _
  unfold pview
  rw [posAssign_id, posAssign_path, posAssign_parent_path, posAssign_parent_id]

/-- Row transport along an equality of `(id, path, parent)` views. -/
theorem find?_of_map_pview :
    ∀ (l2 l : List Node), l2.map pview = l.map pview →
      ∀ m : Node, m ∈ l → (l.map (fun n : Node => n.id)).Nodup →
      ∃ r, l2.find? (fun n => n.id == m.id) = some r ∧ r.path = m.path ∧
        r.parent_path = m.parent_path ∧ r.parent_id = m.parent_id
  | [], [], _, m, hm, _ => absurd hm (List.not_mem_nil m)
  | [], _ :: _, h, _, _, _ => by simp [pview] at h
  | _ :: _, [], h, _, _, _ => by simp [pview] at h
  | a2 :: t2, a :: t, h, m, hm, hnd => by
      simp only [List.map_cons, List.cons.injEq] at h
      have hid : a2.id = a.id := congrArg Prod.fst h.1
      have hpa : a2.path = a.path := congrArg (fun v => v.2.1) h.1
      have hpp : a2.parent_path = a.parent_path := congrArg (fun v => v.2.2.1) h.1
      have hpi : a2.parent_id = a.parent_id := congrArg (fun v => v.2.2.2) h.1
      have hnd0 : (a.id :: t.map (fun n : Node => n.id)).Nodup := by
        rw [← List.map_cons]
        exact hnd
      have hnd1 := List.nodup_cons.mp hnd0
      rcases List.mem_cons.mp hm with rfl | hmt
      · refine ⟨a2, ?_, hpa, hpp, hpi⟩
        simp [List.find?, hid]
      · have hane : a.id ≠ m.id := by
          intro he
          exact hnd1.1 (he ▸ List.mem_map.mpr ⟨m, hmt, rfl⟩)
        obtain ⟨r, hr, h1, h2, h3⟩ := find?_of_map_pview t2 t h.2 m hmt hnd1.2
        refine ⟨r, ?_, h1, h2, h3⟩
        simp only [List.find?]
        rw [show (a2.id == m.id) = false by simp [hid, hane]]
        exact hr

/-- Row transport along an equality of `(id, path, deleted)` views. -/
theorem find?_of_map_keyView :
    ∀ (l2 l : List Node), l2.map keyView = l.map keyView →
      ∀ m : Node, m ∈ l → (l.map (fun n : Node => n.id)).Nodup →
      ∃ r, l2.find? (fun n => n.id == m.id) = some r ∧ r.id = m.id ∧
        r.path = m.path ∧ r.deleted_at = m.deleted_at
  | [], [], _, m, hm, _ => absurd hm (List.not_mem_nil m)
  | [], _ :: _, h, _, _, _ => by simp [keyView] at h
  | _ :: _, [], h, _, _, _ => by simp [keyView] at h
  | a2 :: t2, a :: t, h, m, hm, hnd => by
      simp only [List.map_cons, List.cons.injEq] at h
      have hid : a2.id = a.id := congrArg Prod.fst h.1
      have hpa : a2.path = a.path := congrArg (fun v => v.2.1) h.1
      have hda : a2.deleted_at = a.deleted_at := congrArg (fun v => v.2.2) h.1
      have hnd0 : (a.id :: t.map (fun n : Node => n.id)).Nodup := by
        rw [← List.map_cons]
        exact hnd
      have hnd1 := List.nodup_cons.mp hnd0
      rcases List.mem_cons.mp hm with rfl | hmt
      · refine ⟨a2, ?_, hid, hpa, hda⟩
        simp [List.find?, hid]
      · have hane : a.id ≠ m.id := by
          intro he
          exact hnd1.1 (he ▸ List.mem_map.mpr ⟨m, hmt, rfl⟩)
        obtain ⟨r, hr, h1, h2, h3⟩ := find?_of_map_keyView t2 t h.2 m hmt hnd1.2
        refine ⟨r, ?_, h1, h2, h3⟩
        simp only [List.find?]
        rw [show (a2.id == m.id) = false by simp [hid, hane]]
        exact hr

/-- An attribute flush that keeps the row's id, path and soft-delete
marker keeps the table's key view. -/
theorem keyView_setNode (db : DB) (node n : Node) (hnodup : NodupIds db)
    (hmem : node ∈ db.nodes) (hid : n.id = node.id) (hpath : n.path = node.path)
    (hdel : n.deleted_at = node.deleted_at) :
    (setNode db node.id n).nodes.map keyView = db.nodes.map keyView := by
  show (db.nodes.map _).map keyView = _
  rw [List.map_map]
  apply List.map_congr_left
  intro x hx
  by_cases hxid : x.id = node.id
  · have hxeq : x = node := eq_of_mem_of_id_eq hnodup hx hmem hxid
    subst hxeq
    simp [Function.comp, keyView, hid, hpath, hdel]
  · simp [Function.comp, hxid]

theorem keyView_update_if (db : DB) (c : Prop) [Decidable c] (ids : List Nat)
    (d : Int) :
    (if c then update_subtree_counts db ids d else db).nodes.map keyView
      = db.nodes.map keyView := by
  by_cases hc : c
  · rw [if_pos hc]
    exact keyView_update_subtree_counts db ids d
  · rw [if_neg hc]

theorem keyView_migrate (db : DB) (q : Path) (opp npp : Option Path) :
    (migrate_subtree_counts_on_move db q opp npp).nodes.map keyView
      = db.nodes.map keyView := by
  unfold migrate_subtree_counts_on_move
  by_cases h1 : (fetch_subtree db q false).map (·.id) = []
  · rw [if_pos h1]
  · rw [if_neg h1]
    by_cases h2 : countBindingsFor db ((fetch_subtree db q false).map (·.id)) = 0
    · rw [if_pos h2]
    · rw [if_neg h2]
      refine Eq.trans (keyView_update_if _ _ _ _) (keyView_update_if _ _ _ _)

theorem NodupIds_of_keyView (db db2 : DB)
    (h : db2.nodes.map keyView = db.nodes.map keyView)
    (hnodup : NodupIds db) : NodupIds db2 := by
  unfold NodupIds at hnodup ⊢
  have h1 : db2.nodes.map (·.id) = (db2.nodes.map keyView).map (fun v => v.1) := by
    rw [List.map_map]
    rfl
  have h2 : db.nodes.map (·.id) = (db.nodes.map keyView).map (fun v => v.1) := by
    rw [List.map_map]
    rfl
  rw [h1, h, ← h2]
  exact hnodup

theorem NodupPaths_of_keyView (db db2 : DB)
    (h : db2.nodes.map keyView = db.nodes.map keyView)
    (hp : NodupPaths db) : NodupPaths db2 := by
  unfold NodupPaths at hp ⊢
  have h1 : db2.nodes.map (·.path)
      = (db2.nodes.map keyView).map (fun v => v.2.1) := by
    rw [List.map_map]
    rfl
  have h2 : db.nodes.map (·.path)
      = (db.nodes.map keyView).map (fun v => v.2.1) := by
    rw [List.map_map]
    rfl
  rw [h1, h, ← h2]
  exact hp

/-- Stages 1-4 of `update_node` when the parent is left alone: only the
field writes happen. -/
theorem upd_stage4_keep (db : DB) (node : Node) (data : NodeUpdateData)
    (tgtPP : Option Path) (tgtPid : Option Nat)
    (hset : data.parent_path_set = false) :
    upd_stage4 db node data tgtPP tgtPid
      = (setNode db node.id (upd_n1 node data), upd_n1 node data) := by
  unfold upd_stage4
  simp only [hset, Bool.false_eq_true, if_false]

/-- Stages 1-4 of `update_node` on a re-link that keeps the parent id:
the field writes and the parent columns, no fresh position and no
counter migration. -/
theorem upd_stage4_relink (db : DB) (node : Node) (data : NodeUpdateData)
    (tgtPP : Option Path) (tgtPid : Option Nat)
    (hset : data.parent_path_set = true) (hsame : tgtPid = node.parent_id) :
    upd_stage4 db node data tgtPP tgtPid
      = (setNode db node.id (updRelinkNode node data tgtPP tgtPid),
         updRelinkNode node data tgtPP tgtPid) := by
  unfold upd_stage4 updRelinkNode
  simp only [if_pos hset]
  rw [if_neg (fun hne => hne hsame)]
  rw [setNode_setNode db node.id (upd_n1 node data) _ (upd_n1_id node data)]

theorem upd_stage4_snd_id (db : DB) (node : Node) (data : NodeUpdateData)
    (tgtPP : Option Path) (tgtPid : Option Nat) :
    (upd_stage4 db node data tgtPP tgtPid).2.id = node.id := by
  by_cases hset : data.parent_path_set = true
  · by_cases hmv : tgtPid ≠ node.parent_id
    · rw [upd_stage4_move db node data tgtPP tgtPid hset hmv]
      exact updMoveNode_id db node data tgtPP tgtPid
    · rw [upd_stage4_relink db node data tgtPP tgtPid hset (not_not.mp hmv)]
      exact updRelinkNode_id node data tgtPP tgtPid
  · have hset2 : data.parent_path_set = false := by
      cases hb : data.parent_path_set
      · rfl
      · exact absurd hb hset
    rw [upd_stage4_keep db node data tgtPP tgtPid hset2]
    exact upd_n1_id node data

theorem keyView_upd_stage4 (db : DB) (node : Node) (data : NodeUpdateData)
    (tgtPP : Option Path) (tgtPid : Option Nat)
    (hnodup : NodupIds db) (hmem : node ∈ db.nodes) :
    (upd_stage4 db node data tgtPP tgtPid).1.nodes.map keyView
      = db.nodes.map keyView := by
  by_cases hset : data.parent_path_set = true
  · by_cases hmv : tgtPid ≠ node.parent_id
    · rw [upd_stage4_move db node data tgtPP tgtPid hset hmv]
      rw [show (migrate_subtree_counts_on_move
          (setNode db node.id (updMoveNode db node data tgtPP tgtPid))
          node.path node.parent_path tgtPP,
          updMoveNode db node data tgtPP tgtPid).1
        = migrate_subtree_counts_on_move
          (setNode db node.id (updMoveNode db node data tgtPP tgtPid))
          node.path node.parent_path tgtPP from rfl]
      rw [keyView_migrate]
      exact keyView_setNode db node _ hnodup hmem
        (updMoveNode_id db node data tgtPP tgtPid)
        (updMoveNode_path db node data tgtPP tgtPid)
        (updMoveNode_deleted_at db node data tgtPP tgtPid)
    · rw [upd_stage4_relink db node data tgtPP tgtPid hset (not_not.mp hmv)]
      exact keyView_setNode db node _ hnodup hmem
        (updRelinkNode_id node data tgtPP tgtPid)
        (updRelinkNode_path node data tgtPP tgtPid)
        (updRelinkNode_deleted_at node data tgtPP tgtPid)
  · have hset2 : data.parent_path_set = false := by
      cases hb : data.parent_path_set
      · rfl
      · exact absurd hb hset
    rw [upd_stage4_keep db node data tgtPP tgtPid hset2]
    exact keyView_setNode db node _ hnodup hmem (upd_n1_id node data)
      (upd_n1_path node data) rfl

/-- Success shape of `update_node` when the parent is left alone. -/
theorem update_node_ok_keep (db : DB) (nodeId : Nat) (data : NodeUpdateData)
    (user : String) (node : Node)
    (hu : user ≠ "") (hn : nodeById db nodeId = some node)
    (hact : node.deleted_at = none)
    (hslug : ∀ s, data.slug = some s → validSlug s)
    (hset : data.parent_path_set = false)
    (hnm : ¬ has_active_name db node.parent_path (data.name.getD node.name)
      (some node.id))
    (hpc : ¬ has_active_path db (updNewPath node data node.parent_path)
      (some node.id)) :
    update_node db nodeId data user
      = .ok (update_apply db node data user node.parent_path node.parent_id) := by
  unfold update_node
  cases hppn : node.parent_path with
  | none =>
      have hpc2 : ¬ has_active_path db [data.slug.getD node.slug]
          (some node.id) = true := by
        rw [hppn] at hpc
        exact hpc
      rw [hppn] at hnm
      cases hds : data.slug with
      | none =>
          rw [hds, Option.getD_none] at hpc2
          simp [hu, hn, hact, hset, hppn, hnm, hpc2, hds, throw_eq_error,
            error_bind, ok_bind, map_error, map_ok, pure_eq_ok]
      | some s =>
          rw [hds, Option.getD_some] at hpc2
          simp [hu, hn, hact, hset, hppn, hnm, hpc2, hds, hslug s hds,
            throw_eq_error, error_bind, ok_bind, map_error, map_ok, pure_eq_ok]
  | some q =>
      have hpc2 : ¬ has_active_path db (q ++ [data.slug.getD node.slug])
          (some node.id) = true := by
        rw [hppn] at hpc
        exact hpc
      rw [hppn] at hnm
      cases hds : data.slug with
      | none =>
          rw [hds, Option.getD_none] at hpc2
          simp [hu, hn, hact, hset, hppn, hnm, hpc2, hds, throw_eq_error,
            error_bind, ok_bind, map_error, map_ok, pure_eq_ok]
      | some s =>
          rw [hds, Option.getD_some] at hpc2
          simp [hu, hn, hact, hset, hppn, hnm, hpc2, hds, hslug s hds,
            throw_eq_error, error_bind, ok_bind, map_error, map_ok, pure_eq_ok]

theorem rewriteRow_id (node1 : Node) (oldPath : Path) (user : String)
    (d : Node) : (rewriteRow node1 oldPath user d).id = d.id := by
  unfold rewriteRow
  by_cases hs : strictUnder d.path oldPath
  · simp only [if_pos hs]
  · simp only [if_neg hs]

theorem relinkRow_id (updated : List Node) (d : Node) :
    (relinkRow updated d).id = d.id := rfl

theorem relinkRow_path (updated : List Node) (d : Node) :
    (relinkRow updated d).path = d.path := rfl

theorem relinkRow_parent_path (updated : List Node) (d : Node) :
    (relinkRow updated d).parent_path = d.parent_path := rfl

/-- New path of a rewritten strict descendant row. -/
theorem rewriteRow_path_of (node1 : Node) (oldPath : Path) (user : String)
    (d : Node) (hs : strictUnder d.path oldPath) :
    (rewriteRow node1 oldPath user d).path
      = node1.path ++ d.path.drop oldPath.length := by
  unfold rewriteRow
  simp only [if_pos hs]

/-- New parent path of a rewritten strict descendant row: always the new
path minus its last label, because the new path keeps at least the new
root path plus one label. -/
theorem rewriteRow_parent_path_of (node1 : Node) (oldPath : Path)
    (user : String) (d : Node) (hs : strictUnder d.path oldPath)
    (hn1 : node1.path ≠ []) :
    (rewriteRow node1 oldPath user d).parent_path
      = some ((node1.path ++ d.path.drop oldPath.length).dropLast) := by
  unfold rewriteRow
  simp only [if_pos hs]
  have hlen : 2 ≤ (node1.path ++ d.path.drop oldPath.length).length := by
    rw [List.length_append, List.length_drop]
    have h1 : 1 ≤ node1.path.length := List.length_pos.mpr hn1
    have h2 : oldPath.length < d.path.length := hs.2
    omega
  rw [if_pos hlen]

/-- The descendant rewrite changes no row id. -/
theorem NodupIds_rewrite_descendants (db : DB) (node1 : Node) (oldPath : Path)
    (user : String) (hnodup : NodupIds db) :
    NodupIds (rewrite_descendants db node1 oldPath user) := by
  unfold NodupIds at hnodup ⊢
  unfold rewrite_descendants
  show ((db.nodes.map (fun m : Node =>
      if m.id = node1.id then { m with path := node1.path }
      else
        match ((rewrittenDescs db node1 oldPath user).map
            (relinkRow (node1 :: rewrittenDescs db node1 oldPath user))).find?
            (fun d => d.id == m.id) with
        | some d => d
        | none => m)).map (fun x : Node => x.id)).Nodup
  rw [List.map_map]
  have hc : ∀ m ∈ db.nodes,
      ((fun x : Node => x.id) ∘ fun m : Node =>
        if m.id = node1.id then { m with path := node1.path }
        else
          match ((rewrittenDescs db node1 oldPath user).map
              (relinkRow (node1 :: rewrittenDescs db node1 oldPath user))).find?
              (fun d => d.id == m.id) with
          | some d => d
          | none => m) m = m.id := by
    intro m _
    by_cases hid : m.id = node1.id
    · simp [Function.comp, hid]
    · simp only [Function.comp, if_neg hid]
      cases hfind : ((rewrittenDescs db node1 oldPath user).map
          (relinkRow (node1 :: rewrittenDescs db node1 oldPath user))).find?
          (fun d => d.id == m.id) with
      | none => rfl
      | some d =>
          have := List.find?_some hfind
          simpa using this
  rw [List.map_congr_left hc]
  exact hnodup

theorem find?_eq_of_pred_unique {α : Type} :
    ∀ (l : List α) (p : α → Bool) (a : α), a ∈ l → p a = true →
      (∀ b ∈ l, p b = true → b = a) → l.find? p = some a
  | [], _, a, ha, _, _ => absurd ha (List.not_mem_nil a)
  | b :: t, p, a, ha, hpa, huniq => by
      cases hpb : p b with
      | true =>
          rw [List.find?_cons_of_pos t hpb]
          exact congrArg some (huniq b (List.mem_cons_self b t) hpb)
      | false =>
          rw [List.find?_cons_of_neg t (by simp [hpb])]
          have hat : a ∈ t := by
            rcases List.mem_cons.mp ha with rfl | h
            · rw [hpa] at hpb
              cases hpb
            · exact h
          exact find?_eq_of_pred_unique t p a hat hpa
            (fun b2 hb2 hpb2 => huniq b2 (List.mem_cons_of_mem b hb2) hpb2)

theorem eq_of_mem_of_path_eq {db : DB} (h : NodupPaths db) {a b : Node}
    (ha : a ∈ db.nodes) (hb : b ∈ db.nodes) (hp : a.path = b.path) : a = b := by
  classical
  exact List.inj_on_of_nodup_map h ha hb hp

/-- Row-level effect of the descendant rewrite on a strict descendant of
the old path: its row becomes the rewritten and re-linked value. -/
theorem rewrite_descendants_desc_row (db : DB) (node1 : Node) (oldPath : Path)
    (user : String) (hnodup : NodupIds db)
    (m : Node) (hm : m ∈ db.nodes) (hmid : m.id ≠ node1.id)
    (hdesc : strictUnder m.path oldPath) :
    nodeById (rewrite_descendants db node1 oldPath user) m.id
      = some (relinkRow (node1 :: rewrittenDescs db node1 oldPath user)
          (rewriteRow node1 oldPath user m)) := by
  classical
  have hmdesc : m ∈ fetch_descendants db oldPath node1.id := by
    unfold fetch_descendants
    refine List.mem_filter.mpr ⟨hm, ?_⟩
    simp [hmid, hdesc]
  have hdescnd : ((fetch_descendants db oldPath node1.id).map
      (fun n : Node => n.id)).Nodup := by
    have hsub : (fetch_descendants db oldPath node1.id).Sublist db.nodes :=
      List.filter_sublist db.nodes
    exact List.Nodup.sublist (hsub.map _) hnodup
  have hcomp : ∀ x : Node,
      ((relinkRow (node1 :: rewrittenDescs db node1 oldPath user)
        ∘ rewriteRow node1 oldPath user) x).id = x.id := by
    intro x
    rw [Function.comp_apply, relinkRow_id, rewriteRow_id]
  have hfind2 := find?_id_map (fetch_descendants db oldPath node1.id)
    (relinkRow (node1 :: rewrittenDescs db node1 oldPath user)
      ∘ rewriteRow node1 oldPath user) hcomp hdescnd m hmdesc
  have hfind : ((rewrittenDescs db node1 oldPath user).map
      (relinkRow (node1 :: rewrittenDescs db node1 oldPath user))).find?
      (fun d => d.id == m.id)
      = some (relinkRow (node1 :: rewrittenDescs db node1 oldPath user)
          (rewriteRow node1 oldPath user m)) := by
    have he : (rewrittenDescs db node1 oldPath user).map
        (relinkRow (node1 :: rewrittenDescs db node1 oldPath user))
        = (fetch_descendants db oldPath node1.id).map
          (relinkRow (node1 :: rewrittenDescs db node1 oldPath user)
            ∘ rewriteRow node1 oldPath user) := by
      unfold rewrittenDescs
      rw [List.map_map]
    rw [he]
    exact hfind2
  have hF : ∀ x : Node, ((fun mm : Node =>
      if mm.id = node1.id then { mm with path := node1.path }
      else
        match ((rewrittenDescs db node1 oldPath user).map
            (relinkRow (node1 :: rewrittenDescs db node1 oldPath user))).find?
            (fun d : Node => d.id == mm.id) with
        | some d => d
        | none => mm) x).id = x.id := by
    intro x
    by_cases hid : x.id = node1.id
    · simp [hid]
    · simp only [if_neg hid]
      cases hf2 : ((rewrittenDescs db node1 oldPath user).map
          (relinkRow (node1 :: rewrittenDescs db node1 oldPath user))).find?
          (fun d => d.id == x.id) with
      | none => rfl
      | some d =>
          have := List.find?_some hf2
          simpa using this
  have hrow := find?_id_map db.nodes (fun mm : Node =>
      if mm.id = node1.id then { mm with path := node1.path }
      else
        match ((rewrittenDescs db node1 oldPath user).map
            (relinkRow (node1 :: rewrittenDescs db node1 oldPath user))).find?
            (fun d : Node => d.id == mm.id) with
        | some d => d
        | none => mm) hF hnodup m hm
  have hFm : (if m.id = node1.id then { m with path := node1.path }
      else
        match ((rewrittenDescs db node1 oldPath user).map
            (relinkRow (node1 :: rewrittenDescs db node1 oldPath user))).find?
            (fun d => d.id == m.id) with
        | some d => d
        | none => m)
      = relinkRow (node1 :: rewrittenDescs db node1 oldPath user)
          (rewriteRow node1 oldPath user m) := by
    rw [if_neg hmid, hfind]
  exact hrow.trans (congrArg some hFm)

theorem updNewPath_ne_nil (node : Node) (data : NodeUpdateData)
    (tgtPP : Option Path) : updNewPath node data tgtPP ≠ [] := by
  unfold updNewPath
  cases tgtPP with
  | none => simp
  | some pp => simp

theorem relinkRow_parent_id (updated : List Node) (d : Node) :
    (relinkRow updated d).parent_id
      = match truthyPath d.parent_path with
        | some pp => pathToId updated pp
        | none => none := rfl

/-- C4: when `update_node` changes the node's path, every descendant row
ends with the new path prefix plus its previous relative suffix, its
`parent_path` is recomputed as its new path minus the last label, and
its `parent_id` resolves to the row that held its old parent path,
through the rewritten dict of updated rows. -/
theorem update_rewrites_descendant_paths
    (db : DB) (nodeId : Nat) (data : NodeUpdateData) (user : String)
    (node : Node) (tgtPP : Option Path) (tgtPid : Option Nat)
    (hnodup : NodupIds db) (hpaths : NodupPaths db)
    (hu : user ≠ "") (hn : nodeById db nodeId = some node)
    (hact : node.deleted_at = none)
    (hslug : ∀ s, data.slug = some s → validSlug s)
    (hres : (data.parent_path_set = false ∧ tgtPP = node.parent_path ∧
        tgtPid = node.parent_id) ∨
      (data.parent_path_set = true ∧ ∃ pp pnode,
        truthyPath data.parent_path = some pp ∧
        get_active_by_path db pp = some pnode ∧ pnode.id ≠ node.id ∧
        ¬ strictUnder pnode.path node.path ∧ tgtPP = some pnode.path ∧
        tgtPid = some pnode.id))
    (hnm : ¬ has_active_name db tgtPP (data.name.getD node.name)
      (some node.id))
    (hpc : ¬ has_active_path db (updNewPath node data tgtPP) (some node.id))
    (hchange : updNewPath node data tgtPP ≠ node.path) :
    ∃ res, update_node db nodeId data user = Except.ok res ∧
      ∀ m ∈ db.nodes, strictUnder m.path node.path →
        ∃ row, nodeById res.1 m.id = some row ∧
          row.path = updNewPath node data tgtPP
            ++ m.path.drop node.path.length ∧
          row.parent_path = some (row.path.dropLast) ∧
          ∀ w ∈ db.nodes, w.path = m.path.dropLast →
            row.parent_id = some w.id := by
  classical
  have hok : update_node db nodeId data user
      = .ok (update_apply db node data user tgtPP tgtPid) := by
    rcases hres with ⟨hset, hPP, hPid⟩ |
      ⟨hset, pp, pnode, hpp, hp, hself, hsub, hPP, hPid⟩
    · subst hPP
      subst hPid
      exact update_node_ok_keep db nodeId data user node hu hn hact hslug
        hset hnm hpc
    · subst hPP
      subst hPid
      exact update_node_ok db nodeId data user node pnode pp hu hn hact hslug
        hset hpp hp hself hsub hnm hpc
  refine ⟨update_apply db node data user tgtPP tgtPid, hok, ?_⟩
  have hnodemem : node ∈ db.nodes := List.mem_of_find?_eq_some hn
  obtain ⟨db4, n4, hstage⟩ :
      ∃ a b, upd_stage4 db node data tgtPP tgtPid = (a, b) := ⟨_, _, rfl⟩
  have hkv4 : db4.nodes.map keyView = db.nodes.map keyView := by
    have h := keyView_upd_stage4 db node data tgtPP tgtPid hnodup hnodemem
    rw [hstage] at h
    exact h
  have hn4id : n4.id = node.id := by
    have h := upd_stage4_snd_id db node data tgtPP tgtPid
    rw [hstage] at h
    exact h
  have hnodup4 : NodupIds db4 := NodupIds_of_keyView db db4 hkv4 hnodup
  have hpaths4 : NodupPaths db4 := NodupPaths_of_keyView db db4 hkv4 hpaths
  have hviewP : (update_apply db node data user tgtPP tgtPid).1.nodes.map pview
      = (rewrite_descendants db4
          { n4 with path := updNewPath node data tgtPP } node.path
          user).nodes.map pview := by
    unfold update_apply
    simp only [hstage]
    rw [if_pos hchange]
    by_cases hc7 : data.parent_path_set = true ∧ tgtPid ≠ node.parent_id
    · rw [if_pos hc7, pview_normalize, pview_normalize, pview_stamp_updated_by]
    · rw [if_neg hc7, pview_stamp_updated_by]
  have hnp5ne : ({ n4 with path := updNewPath node data tgtPP } : Node).path
      ≠ [] := updNewPath_ne_nil node data tgtPP
  have hnodup5 : NodupIds (rewrite_descendants db4
      { n4 with path := updNewPath node data tgtPP } node.path user) :=
    NodupIds_rewrite_descendants db4 _ node.path user hnodup4
  intro m hm hdesc
  obtain ⟨m4, hm4find, hm4id, hm4path, _⟩ :=
    find?_of_map_keyView db4.nodes db.nodes hkv4 m hm hnodup
  have hm4mem : m4 ∈ db4.nodes := List.mem_of_find?_eq_some hm4find
  have hmneq : m.id ≠ node.id := by
    intro he
    have hmn : m = node := eq_of_mem_of_id_eq hnodup hm hnodemem he
    rw [hmn] at hdesc
    exact absurd hdesc.2 (lt_irrefl _)
  have hm4idne : m4.id
      ≠ ({ n4 with path := updNewPath node data tgtPP } : Node).id := by
    rw [hm4id]
    show m.id ≠ n4.id
    rw [hn4id]
    exact hmneq
  have hm4desc : strictUnder m4.path node.path := by
    rw [hm4path]
    exact hdesc
  have hrow5 := rewrite_descendants_desc_row db4
    { n4 with path := updNewPath node data tgtPP } node.path user hnodup4
    m4 hm4mem hm4idne hm4desc
  rw [hm4id] at hrow5
  have hrowmem := List.mem_of_find?_eq_some hrow5
  obtain ⟨r, hrfind, hrpath, hrpp, hrpid⟩ := find?_of_map_pview
    (update_apply db node data user tgtPP tgtPid).1.nodes
    (rewrite_descendants db4
      { n4 with path := updNewPath node data tgtPP } node.path user).nodes
    hviewP _ hrowmem hnodup5
  have hROWid : (relinkRow
      ({ n4 with path := updNewPath node data tgtPP }
        :: rewrittenDescs db4
          { n4 with path := updNewPath node data tgtPP } node.path user)
      (rewriteRow { n4 with path := updNewPath node data tgtPP }
        node.path user m4)).id = m.id := by
    rw [relinkRow_id, rewriteRow_id, hm4id]
  simp only [hROWid] at hrfind
  have hsne : m.path.drop node.path.length ≠ [] := by
    intro h
    rw [List.drop_eq_nil_iff] at h
    have := hdesc.2
    omega
  have hms : node.path ++ m.path.drop node.path.length = m.path :=
    List.prefix_iff_eq_append.mp hdesc.1
  have hrowpath : (relinkRow
      ({ n4 with path := updNewPath node data tgtPP }
        :: rewrittenDescs db4
          { n4 with path := updNewPath node data tgtPP } node.path user)
      (rewriteRow { n4 with path := updNewPath node data tgtPP }
        node.path user m4)).path
      = updNewPath node data tgtPP ++ m.path.drop node.path.length := by
    rw [relinkRow_path, rewriteRow_path_of _ node.path user m4 hm4desc,
      hm4path]
  refine ⟨r, hrfind, ?_, ?_, ?_⟩
  · rw [hrpath, hrowpath]
  · rw [hrpp, relinkRow_parent_path,
      rewriteRow_parent_path_of _ node.path user m4 hm4desc hnp5ne, hm4path,
      hrpath, hrowpath]
  · intro w hw hwpath
    rw [hrpid, relinkRow_parent_id,
      rewriteRow_parent_path_of _ node.path user m4 hm4desc hnp5ne, hm4path]
    have hQsplit : (({ n4 with path := updNewPath node data tgtPP }
          : Node).path ++ m.path.drop node.path.length).dropLast
        = updNewPath node data tgtPP
          ++ (m.path.drop node.path.length).dropLast :=
      List.dropLast_append_of_ne_nil _ hsne
    rw [hQsplit]
    have hQne : updNewPath node data tgtPP
        ++ (m.path.drop node.path.length).dropLast ≠ [] := by
      intro h
      exact updNewPath_ne_nil node data tgtPP (List.append_eq_nil.mp h).1
    rw [truthyPath_some hQne]
    show pathToId
      ({ n4 with path := updNewPath node data tgtPP }
        :: rewrittenDescs db4
          { n4 with path := updNewPath node data tgtPP } node.path user)
      (updNewPath node data tgtPP
        ++ (m.path.drop node.path.length).dropLast) = some w.id
    have hwdrop : w.path = node.path ++ (m.path.drop node.path.length).dropLast := by
      rw [hwpath]
      conv_lhs => rw [← hms]
      rw [List.dropLast_append_of_ne_nil _ hsne]
    by_cases hs1 : (m.path.drop node.path.length).dropLast = []
    · have hwn : w = node := by
        apply eq_of_mem_of_path_eq hpaths hw hnodemem
        rw [hwdrop, hs1, List.append_nil]
      have hfu : (({ n4 with path := updNewPath node data tgtPP }
            :: rewrittenDescs db4
              { n4 with path := updNewPath node data tgtPP } node.path
                user).reverse).find?
            (fun u => u.path == updNewPath node data tgtPP
              ++ (m.path.drop node.path.length).dropLast)
          = some { n4 with path := updNewPath node data tgtPP } := by
        apply find?_eq_of_pred_unique
        · exact List.mem_reverse.mpr (List.mem_cons_self _ _)
        · simp [hs1]
        · intro u hu hpu
          rcases List.mem_cons.mp (List.mem_reverse.mp hu) with rfl | humem
          · rfl
          · obtain ⟨d4, hd4mem, hd4eq⟩ := List.mem_map.mp humem
            have hd4f := List.mem_filter.mp hd4mem
            have hd4desc : strictUnder d4.path node.path := by
              have := hd4f.2
              simp only [Bool.and_eq_true, decide_eq_true_eq] at this
              exact this.2
            have hupath : u.path = updNewPath node data tgtPP
                ++ d4.path.drop node.path.length := by
              rw [← hd4eq, rewriteRow_path_of _ node.path user d4 hd4desc]
            have hpu2 : u.path = updNewPath node data tgtPP
                ++ (m.path.drop node.path.length).dropLast := by
              simpa using hpu
            rw [hupath, hs1, List.append_nil] at hpu2
            have hlen := congrArg List.length hpu2
            rw [List.length_append, List.length_drop] at hlen
            have := hd4desc.2
            omega
      unfold pathToId
      rw [hfu]
      rw [hwn]
      show some n4.id = some node.id
      rw [hn4id]
    · obtain ⟨w4, hw4find, hw4id, hw4path, _⟩ :=
        find?_of_map_keyView db4.nodes db.nodes hkv4 w hw hnodup
      have hw4mem : w4 ∈ db4.nodes := List.mem_of_find?_eq_some hw4find
      have hwneq : w.id ≠ node.id := by
        intro he
        have hwn : w = node := eq_of_mem_of_id_eq hnodup hw hnodemem he
        rw [hwn] at hwdrop
        have hlen := congrArg List.length hwdrop
        rw [List.length_append] at hlen
        have hpos : 0 < ((m.path.drop node.path.length).dropLast).length :=
          List.length_pos.mpr hs1
        omega
      have hw4desc : strictUnder w4.path node.path := by
        constructor
        · rw [hw4path, hwdrop]
          exact List.prefix_append _ _
        · rw [hw4path, hwdrop, List.length_append]
          have hpos : 0 < ((m.path.drop node.path.length).dropLast).length :=
            List.length_pos.mpr hs1
          omega
      have hw4dmem : w4 ∈ fetch_descendants db4 node.path
          ({ n4 with path := updNewPath node data tgtPP } : Node).id := by
        unfold fetch_descendants
        refine List.mem_filter.mpr ⟨hw4mem, ?_⟩
        have hw4idne : w4.id
            ≠ ({ n4 with path := updNewPath node data tgtPP } : Node).id := by
          rw [hw4id]
          show w.id ≠ n4.id
          rw [hn4id]
          exact hwneq
        simp [hw4idne, hw4desc]
      have hadrop : w4.path.drop node.path.length
          = (m.path.drop node.path.length).dropLast := by
        rw [hw4path, hwdrop]
        exact List.drop_left _ _
      have hfu : (({ n4 with path := updNewPath node data tgtPP }
            :: rewrittenDescs db4
              { n4 with path := updNewPath node data tgtPP } node.path
                user).reverse).find?
            (fun u => u.path == updNewPath node data tgtPP
              ++ (m.path.drop node.path.length).dropLast)
          = some (rewriteRow { n4 with path := updNewPath node data tgtPP }
              node.path user w4) := by
        apply find?_eq_of_pred_unique
        · apply List.mem_reverse.mpr
          apply List.mem_cons_of_mem
          exact List.mem_map.mpr ⟨w4, hw4dmem, rfl⟩
        · rw [rewriteRow_path_of _ node.path user w4 hw4desc, hadrop]
          simp
        · intro u hu hpu
          rcases List.mem_cons.mp (List.mem_reverse.mp hu) with rfl | humem
          · exfalso
            have hpu2 : updNewPath node data tgtPP = updNewPath node data tgtPP
                ++ (m.path.drop node.path.length).dropLast := by
              simpa using hpu
            have hlen := congrArg List.length hpu2
            rw [List.length_append] at hlen
            have hpos : 0 < ((m.path.drop node.path.length).dropLast).length :=
              List.length_pos.mpr hs1
            omega
          · obtain ⟨d4, hd4mem, hd4eq⟩ := List.mem_map.mp humem
            have hd4f := List.mem_filter.mp hd4mem
            have hd4desc : strictUnder d4.path node.path := by
              have := hd4f.2
              simp only [Bool.and_eq_true, decide_eq_true_eq] at this
              exact this.2
            have hupath : u.path = updNewPath node data tgtPP
                ++ d4.path.drop node.path.length := by
              rw [← hd4eq, rewriteRow_path_of _ node.path user d4 hd4desc]
            have hpu2 : u.path = updNewPath node data tgtPP
                ++ (m.path.drop node.path.length).dropLast := by
              simpa using hpu
            rw [hupath] at hpu2
            have hsuf : d4.path.drop node.path.length
                = (m.path.drop node.path.length).dropLast :=
              List.append_cancel_left hpu2
            have hd4path : d4.path = w4.path := by
              have hpre := List.prefix_iff_eq_append.mp hd4desc.1
              rw [← hpre, hsuf, hw4path, hwdrop]
            have hd4w4 : d4 = w4 :=
              eq_of_mem_of_path_eq hpaths4 hd4f.1 hw4mem hd4path
            rw [← hd4eq, hd4w4]
      unfold pathToId
      rw [hfu]
      show some (rewriteRow { n4 with path := updNewPath node data tgtPP }
          node.path user w4).id = some w.id
      rw [rewriteRow_id, hw4id]

theorem update_rewrites_descendant_paths_witness :
    ∃ res, update_node c4db 3 c4data "u" = Except.ok res ∧
      ∀ m ∈ c4db.nodes, strictUnder m.path c4intro.path →
        ∃ row, nodeById res.1 m.id = some row ∧
          row.path = updNewPath c4intro c4data (some ["guides"])
            ++ m.path.drop c4intro.path.length ∧
          row.parent_path = some (row.path.dropLast) ∧
          ∀ w ∈ c4db.nodes, w.path = m.path.dropLast →
            row.parent_id = some w.id :=
  update_rewrites_descendant_paths c4db 3 c4data "u" c4intro
    (some ["guides"]) (some 2) (by decide) (by decide) (by decide)
    (by decide) (by decide) (by intro s h; cases h)
    (Or.inr ⟨rfl, ["guides"], c4guides, rfl, by decide, by decide,
      by decide, rfl, rfl⟩)
    (by decide) (by decide) (by decide)

/-- C5 (amended): `normalize_positions` establishes the dense `0..n-1`
position run for the sibling group it targets, by re-listing the active
siblings ordered by `(position, id)` and rewriting each position to its
index, and it leaves every other sibling group's density intact. The
original claim's universal clause, that the invariant holds after every
committed operation, is refuted separately by a counterexample. -/
theorem density_preserved_and_normalize_establishes
    (db : DB) (pid g : Option Nat) (hnodup : NodupIds db) :
    denseFor (normalize_positions db pid) pid ∧
      (g ≠ pid → denseFor db g → denseFor (normalize_positions db pid) g) := by
  refine ⟨normalize_denseFor db pid hnodup, ?_⟩
  intro hg hd
  unfold denseFor
  rw [normalize_group_other db pid g hnodup hg]
  exact hd

theorem density_preserved_witness :
    denseFor (normalize_positions c1db none) none ∧
      ((some 1 : Option Nat) ≠ none → denseFor c1db (some 1) →
        denseFor (normalize_positions c1db none) (some 1)) :=
  density_preserved_and_normalize_establishes c1db none (some 1) (by decide)

end NDR
